import Mathlib

/-! NesEmulator: the CPU core of `src/CPU.h`, `src/CPU.cpp` and `src/main.cpp`.

A shallow embedding of `NES::CPU`.  Machine integers are natural numbers with
explicit reduction (`% 256` for `uint8_t`, `% 65536` for `uint16_t`).

The member `uint8_t memory[0xFFFF]` is an array of `MEMORY_SIZE = 0xFFFF`
cells, indices `0 .. 0xFFFE`.  The contents are a function from index to byte,
and every access checks the index against `MEMORY_SIZE`: an access outside the
array is undefined behaviour in C++ and is a `fault` (or `none`) here.

The constructor `CPU::CPU()` assigns the three registers and the program
counter and nothing else, so the contents of `memory` after construction are
whatever the storage held before; they are a parameter of `CPU.new`.

`printf` output (in `run` and `printState`) is not modelled.
-/

namespace NES

/-- Macro `#define FLAG_N 0b10000000`. -/
def FLAG_N : Nat := 0b10000000

/-- Macro `#define FLAG_Z 0b00000010`. -/
def FLAG_Z : Nat := 0b00000010

/-- Number of cells of `uint8_t memory[0xFFFF]` (CPU.h line 13). -/
def MEMORY_SIZE : Nat := 0xFFFF

/-- The load base used by `CPU::load` (`&memory[0x8000]`, `program_counter = 0x8000`). -/
def LOAD_BASE : Nat := 0x8000

/-- The `struct CPU` of CPU.h.  `memory i` is the content of cell `i` for
`i < MEMORY_SIZE`; the array has no cell at or above `MEMORY_SIZE`. -/
structure CPU where
  register_A : Nat
  register_X : Nat
  status : Nat
  program_counter : Nat
  memory : Nat → Nat

/-- Bit pattern of `~x` for a non-negative 32-bit `int` `x` (the operand of `~`
is promoted to `int` in C++). -/
def bitNot32 (x : Nat) : Nat := 2 ^ 32 - 1 - x

/-- Constructor `CPU::CPU()`: registers, status and program counter are set to zero; the
array `memory` is not written and keeps the prior content `mem0` of the storage. -/
def CPU.new (mem0 : Nat → Nat) : CPU :=
  { register_A := 0, register_X := 0, status := 0, program_counter := 0, memory := mem0 }

/-- The call `memcpy(&memory[dst], &src[0], src.size())` on the content function:
the cells `dst .. dst + size - 1` receive the bytes of `src`, the others keep theirs. -/
def memcpy (memory : Nat → Nat) (dst : Nat) (src : List Nat) : Nat → Nat :=
  fun a => if dst ≤ a ∧ a < dst + src.length then src.getD (a - dst) 0 else memory a

/-- Method `CPU::load`: copies the program to `memory[0x8000 ..]` and sets the program
counter to `0x8000`.  The copy writes the cells `0x8000 .. 0x8000 + size - 1`;
when one of them is not a cell of the array the result is `none`. -/
def CPU.load (s : CPU) (program : List Nat) : Option CPU :=
  if LOAD_BASE + program.length ≤ MEMORY_SIZE then
    some { s with memory := memcpy s.memory LOAD_BASE program, program_counter := LOAD_BASE }
  else
    none

/-- Method `CPU::memoryRead`: `memory[addr]`, `none` when `addr` is not an index of the array. -/
def CPU.memoryRead (s : CPU) (addr : Nat) : Option Nat :=
  if addr < MEMORY_SIZE then some (s.memory addr) else none

/-- Method `CPU::memoryWrite`: `memory[addr] = data`, `none` when `addr` is not an index
of the array. -/
def CPU.memoryWrite (s : CPU) (addr : Nat) (data : Nat) : Option CPU :=
  if addr < MEMORY_SIZE then
    some { s with memory := fun a => if a = addr then data else s.memory a }
  else
    none

/-- Method `CPU::updateZNFlags`, as a function from the old status to the new one.
Both assignments truncate the `int` result to `uint8_t`. -/
def updateZNFlags (status : Nat) (cpu_register : Nat) : Nat :=
  let status1 :=
    if cpu_register = 0 then (status ||| FLAG_Z) % 256
    else (status &&& bitNot32 FLAG_Z) % 256
  if cpu_register &&& FLAG_N ≠ 0 then (status1 ||| FLAG_N) % 256
  else (status1 &&& bitNot32 FLAG_N) % 256

/-- Method `CPU::LDA`: `register_A = val; updateZNFlags(register_A);` -/
def CPU.LDA (s : CPU) (val : Nat) : CPU :=
  let s1 := { s with register_A := val }
  { s1 with status := updateZNFlags s1.status s1.register_A }

/-- Method `CPU::TAX`: `register_X = register_A; updateZNFlags(register_X);` -/
def CPU.TAX (s : CPU) : CPU :=
  let s1 := { s with register_X := s.register_A }
  { s1 with status := updateZNFlags s1.status s1.register_X }

/-- Method `CPU::INX`: `register_X++` on a `uint8_t`, then `updateZNFlags(register_X)`. -/
def CPU.INX (s : CPU) : CPU :=
  let s1 := { s with register_X := (s.register_X + 1) % 256 }
  { s1 with status := updateZNFlags s1.status s1.register_X }

/-- Result of one iteration of the `for(;;)` loop of `CPU::run`. -/
inductive StepResult where
  /-- The `switch` was left by `break`: the loop goes on from this state. -/
  | next (s : CPU)
  /-- `case 0x00: return;` -/
  | halt (s : CPU)
  /-- A read outside `memory[0xFFFF]`. -/
  | fault

/-- One iteration of the loop body of `CPU::run` (CPU.cpp lines 25-44):
fetch by `memoryRead(program_counter)`, `program_counter++` on a `uint16_t`, then the
`switch`.  The operand of `case 0xA9` is read as `memory[program_counter]`, the same
array access as `memoryRead`.  The `default` case leaves the switch with nothing done. -/
def CPU.step (s : CPU) : StepResult :=
  match s.memoryRead s.program_counter with
  | none => .fault
  | some opcode =>
    let s1 := { s with program_counter := (s.program_counter + 1) % 65536 }
    if opcode = 0xA9 then
      match s1.memoryRead s1.program_counter with
      | none => .fault
      | some parameter =>
        let s2 := { s1 with program_counter := (s1.program_counter + 1) % 65536 }
        .next (s2.LDA parameter)
    else if opcode = 0xAA then .next s1.TAX
    else if opcode = 0xE8 then .next s1.INX
    else if opcode = 0x00 then .halt s1
    else .next s1

/-- Result of running the loop for a bounded number of iterations. -/
inductive RunResult where
  /-- `run` returned in this state. -/
  | halted (s : CPU)
  /-- A read outside `memory[0xFFFF]` happened. -/
  | fault
  /-- The iteration bound was used up; the loop is still running in this state. -/
  | running (s : CPU)

/-- Method `CPU::run`, bounded to `fuel` iterations of the loop. -/
def CPU.run : Nat → CPU → RunResult
  | 0, s => .running s
  | fuel + 1, s =>
    match s.step with
    | .next s1 => CPU.run fuel s1
    | .halt s1 => .halted s1
    | .fault => .fault

/-- Address of the fetch at which `run` returned: the value of `program_counter`
before the iteration that took `case 0x00: return;`, when `run` returns within
`fuel` iterations. -/
def CPU.haltFetch : Nat → CPU → Option Nat
  | 0, _ => none
  | fuel + 1, s =>
    match s.step with
    | .next s1 => CPU.haltFetch fuel s1
    | .halt _ => some s.program_counter
    | .fault => none

/-- The sequence of `main`: construct a CPU, `load(program)`, `run()`.  `mem0` is
the content of the storage of the CPU object before construction. -/
def loadAndRun (fuel : Nat) (mem0 : Nat → Nat) (program : List Nat) : RunResult :=
  match (CPU.new mem0).load program with
  | none => .fault
  | some s => s.run fuel

/-- State after `CPU cpu; cpu.load(program);` when the copy stays inside the
array: the zeros of the constructor, `program_counter = 0x8000`, and the program
copied over the prior memory content. -/
def loaded (mem0 : Nat → Nat) (program : List Nat) : CPU :=
  { register_A := 0, register_X := 0, status := 0, program_counter := LOAD_BASE,
    memory := memcpy mem0 LOAD_BASE program }

/-- The program of `main.cpp`. -/
def mainProgram : List Nat := [0xA9, 0xFE, 0xAA, 0xE8, 0x00]

/-- The values `printState` reports: `register_A`, `register_X`,
`program_counter`, `status`. -/
def CPU.printState (s : CPU) : Nat × Nat × Nat × Nat :=
  (s.register_A, s.register_X, s.program_counter, s.status)

/-- The byte stores that `memcpy(&memory[dst], &src[0], src.size())` performs, in
order, as pairs of index into `memory` and byte stored.  In `CPU::load` no test of
`program.size()` precedes the call. -/
def memcpyStores : Nat → List Nat → List (Nat × Nat)
  | _, [] => []
  | dst, b :: rest => (dst, b) :: memcpyStores (dst + 1) rest

/-- The content function after a sequence of stores `memory[index] = byte`. -/
def applyStores (memory : Nat → Nat) : List (Nat × Nat) → Nat → Nat
  | [] => memory
  | st :: rest => applyStores (fun a => if a = st.1 then st.2 else memory a) rest

/-- The states a caller can bring a CPU object to: construction over any storage
content, then any sequence of `load` calls that stay inside the array and of
iterations of the loop of `run` (the last of which may be the returning one). -/
inductive Reachable : CPU → Prop where
  | construct (mem0 : Nat → Nat) : Reachable (CPU.new mem0)
  | load (s s1 : CPU) (program : List Nat) :
      Reachable s → s.load program = some s1 → Reachable s1
  | next (s s1 : CPU) : Reachable s → s.step = .next s1 → Reachable s1
  | halt (s s1 : CPU) : Reachable s → s.step = .halt s1 → Reachable s1

/-- Outcome of the copy of `CPU::load` followed store by store. -/
inductive LoadResult where
  /-- Every store was to a cell of the array: the state after the call. -/
  | done (s : CPU)
  /-- The store at `index` is not to a cell of the array; `s` is the state at that
  point, with the bytes stored so far.  The behaviour from there on is undefined. -/
  | outOfBounds (s : CPU) (index : Nat)

/-- The stores `memory[index] = byte` of a copy, performed in order on the state; the
first store that is not to a cell of the array stops it. -/
def CPU.storeBytes : List (Nat × Nat) → CPU → LoadResult
  | [], s => .done s
  | st :: rest, s =>
    match s.memoryWrite st.1 st.2 with
    | none => .outOfBounds s st.1
    | some s1 => CPU.storeBytes rest s1

/-- Method `CPU::load` followed store by store: the stores of
`memcpy(&memory[0x8000], &program[0], program.size())`, with no test of
`program.size()` before them, then `program_counter = 0x8000`. -/
def CPU.loadSteps (s : CPU) (program : List Nat) : LoadResult :=
  match CPU.storeBytes (memcpyStores LOAD_BASE program) s with
  | .done s1 => .done { s1 with program_counter := LOAD_BASE }
  | .outOfBounds s1 index => .outOfBounds s1 index

/-! ## Flag arithmetic -/

section Flags

set_option maxRecDepth 100000

theorem and_flagN_cases : ∀ v, v < 256 → (v &&& 128 = 0 ∨ v &&& 128 = 128) := by
  decide

theorem status_setZ_clearN : ∀ s, s < 256 →
    (((s ||| 2) % 256) &&& 4294967167) % 256 = (s &&& 0x7D) ||| 2 := by
  decide

theorem status_clearZ_setN : ∀ s, s < 256 →
    (((s &&& 4294967293) % 256) ||| 128) % 256 = (s &&& 0x7D) ||| 128 := by
  decide

theorem status_clearZ_clearN : ∀ s, s < 256 →
    (((s &&& 4294967293) % 256) &&& 4294967167) % 256 = s &&& 0x7D := by
  decide

theorem status_bits_Z : ∀ s, s < 256 →
    ((s &&& 0x7D) ||| 2) &&& 2 = 2 ∧ ((s &&& 0x7D) ||| 2) &&& 128 = 0 ∧
    ((s &&& 0x7D) ||| 2) &&& 0x7D = s &&& 0x7D ∧ ((s &&& 0x7D) ||| 2) &&& 0x82 = 2 := by
  decide

theorem status_bits_N : ∀ s, s < 256 →
    ((s &&& 0x7D) ||| 128) &&& 2 = 0 ∧ ((s &&& 0x7D) ||| 128) &&& 128 = 128 ∧
    ((s &&& 0x7D) ||| 128) &&& 0x7D = s &&& 0x7D ∧ ((s &&& 0x7D) ||| 128) &&& 0x82 = 128 := by
  decide

theorem status_bits_none : ∀ s, s < 256 →
    (s &&& 0x7D) &&& 2 = 0 ∧ (s &&& 0x7D) &&& 128 = 0 ∧
    (s &&& 0x7D) &&& 0x7D = s &&& 0x7D ∧ (s &&& 0x7D) &&& 0x82 = 0 := by
  decide

end Flags

/-- The three outcomes of `updateZNFlags` on bytes, by the written value. -/
theorem updateZNFlags_cases (s v : Nat) (hs : s < 256) (hv : v < 256) :
    (v = 0 ∧ v &&& 128 = 0 ∧ updateZNFlags s v = (s &&& 0x7D) ||| 2) ∨
    (v ≠ 0 ∧ v &&& 128 = 128 ∧ updateZNFlags s v = (s &&& 0x7D) ||| 128) ∨
    (v ≠ 0 ∧ v &&& 128 = 0 ∧ updateZNFlags s v = s &&& 0x7D) := by
  by_cases h0 : v = 0
  · refine Or.inl ⟨h0, by rw [h0]; rfl, ?_⟩
    have e := status_setZ_clearN s hs
    simp only [updateZNFlags, FLAG_N, FLAG_Z, bitNot32, h0]
    simpa using e
  · rcases and_flagN_cases v hv with h | h
    · refine Or.inr (Or.inr ⟨h0, h, ?_⟩)
      have e := status_clearZ_clearN s hs
      simp only [updateZNFlags, FLAG_N, FLAG_Z, bitNot32, h0, h]
      simpa using e
    · refine Or.inr (Or.inl ⟨h0, h, ?_⟩)
      have e := status_clearZ_setN s hs
      simp only [updateZNFlags, FLAG_N, FLAG_Z, bitNot32, h0, h]
      simpa using e

theorem updateZNFlags_eq (s v : Nat) (hs : s < 256) (hv : v < 256) :
    updateZNFlags s v = (s &&& 0x7D) ||| (if v = 0 then 0x02 else 0) ||| (v &&& 0x80) := by
  rcases updateZNFlags_cases s v hs hv with ⟨h0, h, e⟩ | ⟨h0, h, e⟩ | ⟨h0, h, e⟩ <;>
    rw [e] <;> simp [h0, h]

theorem updateZNFlags_lt (s v : Nat) : updateZNFlags s v < 256 := by
  simp only [updateZNFlags]
  split_ifs <;> exact Nat.mod_lt _ (by decide)

/-- The Zero flag after `updateZNFlags` is set exactly when the written byte is zero. -/
theorem updateZNFlags_flagZ (s v : Nat) (hs : s < 256) (hv : v < 256) :
    (updateZNFlags s v &&& FLAG_Z ≠ 0) ↔ v = 0 := by
  unfold FLAG_Z
  rcases updateZNFlags_cases s v hs hv with ⟨h0, _, e⟩ | ⟨h0, _, e⟩ | ⟨h0, _, e⟩
  · rw [e, (status_bits_Z s hs).1]; simp [h0]
  · rw [e, (status_bits_N s hs).1]; simp [h0]
  · rw [e, (status_bits_none s hs).1]; simp [h0]

/-- The Negative flag after `updateZNFlags` is set exactly when bit 7 of the written
byte is set. -/
theorem updateZNFlags_flagN (s v : Nat) (hs : s < 256) (hv : v < 256) :
    (updateZNFlags s v &&& FLAG_N ≠ 0) ↔ v &&& 0x80 ≠ 0 := by
  unfold FLAG_N
  rcases updateZNFlags_cases s v hs hv with ⟨_, h, e⟩ | ⟨_, h, e⟩ | ⟨_, h, e⟩
  · rw [e, (status_bits_Z s hs).2.1]; simp [h]
  · rw [e, (status_bits_N s hs).2.1]; simp [h]
  · rw [e, (status_bits_none s hs).2.1]; simp [h]

/-- The six bits other than Zero and Negative are left as they were. -/
theorem updateZNFlags_other_bits (s v : Nat) (hs : s < 256) (hv : v < 256) :
    updateZNFlags s v &&& 0x7D = s &&& 0x7D := by
  rcases updateZNFlags_cases s v hs hv with ⟨_, _, e⟩ | ⟨_, _, e⟩ | ⟨_, _, e⟩
  · rw [e, (status_bits_Z s hs).2.2.1]
  · rw [e, (status_bits_N s hs).2.2.1]
  · rw [e, (status_bits_none s hs).2.2.1]

/-- The Zero and Negative bits after `updateZNFlags` are a function of the written byte. -/
theorem updateZNFlags_ZN_bits (s v : Nat) (hs : s < 256) (hv : v < 256) :
    updateZNFlags s v &&& 0x82 = (if v = 0 then 0x02 else 0) ||| (v &&& 0x80) := by
  rcases updateZNFlags_cases s v hs hv with ⟨h0, h, e⟩ | ⟨h0, h, e⟩ | ⟨h0, h, e⟩
  · rw [e, (status_bits_Z s hs).2.2.2]; simp [h0]
  · rw [e, (status_bits_N s hs).2.2.2]; simp [h0, h]
  · rw [e, (status_bits_none s hs).2.2.2]; simp [h0, h]

/-- Writing the flags of the same byte twice is the same as writing them once. -/
theorem updateZNFlags_idem (s v : Nat) (hs : s < 256) (hv : v < 256) :
    updateZNFlags (updateZNFlags s v) v = updateZNFlags s v := by
  rw [updateZNFlags_eq (updateZNFlags s v) v (updateZNFlags_lt s v) hv,
    updateZNFlags_other_bits s v hs hv, ← updateZNFlags_eq s v hs hv]

/-! ## Memory and `load` -/

theorem memcpy_inside (m : Nat → Nat) (d : Nat) (src : List Nat) (i : Nat)
    (h : i < src.length) : memcpy m d src (d + i) = src.getD i 0 := by
  unfold memcpy
  rw [if_pos ⟨by omega, by omega⟩, Nat.add_sub_cancel_left]

theorem memcpy_outside (m : Nat → Nat) (d : Nat) (src : List Nat) (a : Nat)
    (h : a < d ∨ d + src.length ≤ a) : memcpy m d src a = m a := by
  unfold memcpy
  rw [if_neg (by omega)]

/-- On a program that fits between `0x8000` and the end of the array, `load` returns
the state with the program copied and the program counter at `0x8000`. -/
theorem load_eq_some (s : CPU) (p : List Nat) (h : LOAD_BASE + p.length ≤ MEMORY_SIZE) :
    s.load p = some { s with memory := memcpy s.memory LOAD_BASE p,
                             program_counter := LOAD_BASE } := by
  unfold CPU.load
  rw [if_pos h]

theorem load_eq_none (s : CPU) (p : List Nat) (h : MEMORY_SIZE < LOAD_BASE + p.length) :
    s.load p = none := by
  unfold CPU.load
  rw [if_neg (by omega)]

theorem load_new (mem0 : Nat → Nat) (p : List Nat) (h : LOAD_BASE + p.length ≤ MEMORY_SIZE) :
    (CPU.new mem0).load p = some (loaded mem0 p) := by
  rw [load_eq_some _ _ h]
  rfl

theorem loadAndRun_eq (fuel : Nat) (mem0 : Nat → Nat) (p : List Nat)
    (h : LOAD_BASE + p.length ≤ MEMORY_SIZE) :
    loadAndRun fuel mem0 p = (loaded mem0 p).run fuel := by
  unfold loadAndRun
  rw [load_new _ _ h]

theorem loaded_memory (mem0 : Nat → Nat) (p : List Nat) (i : Nat) (h : i < p.length) :
    (loaded mem0 p).memory (LOAD_BASE + i) = p.getD i 0 :=
  memcpy_inside mem0 LOAD_BASE p i h

/-! ## One iteration of the loop -/

theorem pc_succ (pc : Nat) (h : pc < MEMORY_SIZE) : (pc + 1) % 65536 = pc + 1 := by
  unfold MEMORY_SIZE at h
  exact Nat.mod_eq_of_lt (by omega)

theorem step_fault (s : CPU) (h : MEMORY_SIZE ≤ s.program_counter) : s.step = .fault := by
  simp [CPU.step, CPU.memoryRead, Nat.not_lt.mpr h]

theorem step_LDA (s : CPU) (h : s.program_counter + 1 < MEMORY_SIZE)
    (hop : s.memory s.program_counter = 0xA9) :
    s.step = .next (CPU.LDA { s with program_counter := s.program_counter + 2 }
      (s.memory (s.program_counter + 1))) := by
  have h0 : s.program_counter < MEMORY_SIZE := by omega
  simp [CPU.step, CPU.memoryRead, h0, hop, pc_succ _ h0, h, pc_succ _ h]

theorem step_LDA_fault (s : CPU) (h0 : s.program_counter < MEMORY_SIZE)
    (h : MEMORY_SIZE ≤ s.program_counter + 1)
    (hop : s.memory s.program_counter = 0xA9) : s.step = .fault := by
  simp [CPU.step, CPU.memoryRead, h0, hop, pc_succ _ h0, Nat.not_lt.mpr h]

theorem step_TAX (s : CPU) (h : s.program_counter < MEMORY_SIZE)
    (hop : s.memory s.program_counter = 0xAA) :
    s.step = .next (CPU.TAX { s with program_counter := s.program_counter + 1 }) := by
  simp [CPU.step, CPU.memoryRead, h, hop, pc_succ _ h]

theorem step_INX (s : CPU) (h : s.program_counter < MEMORY_SIZE)
    (hop : s.memory s.program_counter = 0xE8) :
    s.step = .next (CPU.INX { s with program_counter := s.program_counter + 1 }) := by
  simp [CPU.step, CPU.memoryRead, h, hop, pc_succ _ h]

theorem step_BRK (s : CPU) (h : s.program_counter < MEMORY_SIZE)
    (hop : s.memory s.program_counter = 0x00) :
    s.step = .halt { s with program_counter := s.program_counter + 1 } := by
  simp [CPU.step, CPU.memoryRead, h, hop, pc_succ _ h]

theorem step_unknown (s : CPU) (h : s.program_counter < MEMORY_SIZE)
    (h0 : s.memory s.program_counter ≠ 0x00) (h1 : s.memory s.program_counter ≠ 0xA9)
    (h2 : s.memory s.program_counter ≠ 0xAA) (h3 : s.memory s.program_counter ≠ 0xE8) :
    s.step = .next { s with program_counter := s.program_counter + 1 } := by
  simp [CPU.step, CPU.memoryRead, h, h0, h1, h2, h3, pc_succ _ h]

theorem memoryRead_eq_some (s : CPU) (a v : Nat) (h : s.memoryRead a = some v) :
    a < MEMORY_SIZE ∧ s.memory a = v := by
  unfold CPU.memoryRead at h
  by_cases hlt : a < MEMORY_SIZE
  · rw [if_pos hlt] at h
    exact ⟨hlt, Option.some.inj h⟩
  · rw [if_neg hlt] at h
    cases h

/-! ## The bounded loop -/

theorem run_zero (s : CPU) : s.run 0 = .running s := rfl

theorem run_next (n : Nat) (s s1 : CPU) (h : s.step = .next s1) :
    s.run (n + 1) = s1.run n := by
  simp only [CPU.run, h]

theorem run_halt (n : Nat) (s s1 : CPU) (h : s.step = .halt s1) :
    s.run (n + 1) = .halted s1 := by
  simp only [CPU.run, h]

theorem run_fault (n : Nat) (s : CPU) (h : s.step = .fault) : s.run (n + 1) = .fault := by
  simp only [CPU.run, h]

/-- Once `run` has returned within `n` iterations, a larger bound gives the same result. -/
theorem run_halted_add (n k : Nat) (s t : CPU) (h : s.run n = .halted t) :
    s.run (n + k) = .halted t := by
  induction n generalizing s with
  | zero => simp [CPU.run] at h
  | succ n ih =>
    rw [Nat.add_right_comm]
    cases hs : s.step with
    | next s1 =>
      rw [run_next _ _ _ hs] at h ⊢
      exact ih s1 h
    | halt s1 =>
      rw [run_halt _ _ _ hs] at h ⊢
      exact h
    | fault =>
      rw [run_fault _ _ hs] at h
      cases h

theorem run_fault_add (n k : Nat) (s : CPU) (h : s.run n = .fault) :
    s.run (n + k) = .fault := by
  induction n generalizing s with
  | zero => simp [CPU.run] at h
  | succ n ih =>
    rw [Nat.add_right_comm]
    cases hs : s.step with
    | next s1 =>
      rw [run_next _ _ _ hs] at h ⊢
      exact ih s1 h
    | halt s1 =>
      rw [run_halt _ _ _ hs] at h
      cases h
    | fault =>
      rw [run_fault _ _ hs]

/-! ## What an iteration and a run preserve -/

/-- An iteration that continues has read inside the array, moved the program counter
forward without wrapping and left `memory` as it was. -/
theorem step_next_inv (s s1 : CPU) (h : s.step = .next s1) :
    s.program_counter < MEMORY_SIZE ∧ s.program_counter < s1.program_counter ∧
    s1.program_counter ≤ s.program_counter + 2 ∧ s1.memory = s.memory := by
  by_cases hpc : s.program_counter < MEMORY_SIZE
  · by_cases hA : s.memory s.program_counter = 0xA9
    · by_cases hpc1 : s.program_counter + 1 < MEMORY_SIZE
      · rw [step_LDA s hpc1 hA] at h
        simp only [StepResult.next.injEq] at h
        subst h
        exact ⟨hpc, by simp [CPU.LDA], by simp [CPU.LDA], rfl⟩
      · rw [step_LDA_fault s hpc (by omega) hA] at h
        cases h
    · by_cases hT : s.memory s.program_counter = 0xAA
      · rw [step_TAX s hpc hT] at h
        simp only [StepResult.next.injEq] at h
        subst h
        exact ⟨hpc, by simp [CPU.TAX], by simp [CPU.TAX], rfl⟩
      · by_cases hI : s.memory s.program_counter = 0xE8
        · rw [step_INX s hpc hI] at h
          simp only [StepResult.next.injEq] at h
          subst h
          exact ⟨hpc, by simp [CPU.INX], by simp [CPU.INX], rfl⟩
        · by_cases hB : s.memory s.program_counter = 0x00
          · rw [step_BRK s hpc hB] at h
            cases h
          · rw [step_unknown s hpc hB hA hT hI] at h
            simp only [StepResult.next.injEq] at h
            subst h
            exact ⟨hpc, by simp, by simp, rfl⟩
  · rw [step_fault s (by omega)] at h
    cases h

/-- An iteration that returns has fetched `0x00` inside the array and changed nothing
but the program counter, which is one past the fetch address. -/
theorem step_halt_inv (s t : CPU) (h : s.step = .halt t) :
    s.program_counter < MEMORY_SIZE ∧ s.memory s.program_counter = 0x00 ∧
    t = { s with program_counter := s.program_counter + 1 } := by
  by_cases hpc : s.program_counter < MEMORY_SIZE
  · by_cases hA : s.memory s.program_counter = 0xA9
    · by_cases hpc1 : s.program_counter + 1 < MEMORY_SIZE
      · rw [step_LDA s hpc1 hA] at h
        cases h
      · rw [step_LDA_fault s hpc (by omega) hA] at h
        cases h
    · by_cases hT : s.memory s.program_counter = 0xAA
      · rw [step_TAX s hpc hT] at h
        cases h
      · by_cases hI : s.memory s.program_counter = 0xE8
        · rw [step_INX s hpc hI] at h
          cases h
        · by_cases hB : s.memory s.program_counter = 0x00
          · rw [step_BRK s hpc hB] at h
            simp only [StepResult.halt.injEq] at h
            exact ⟨hpc, hB, h.symm⟩
          · rw [step_unknown s hpc hB hA hT hI] at h
            cases h
  · rw [step_fault s (by omega)] at h
    cases h

/-- When `run` returns, it returns one past the address of the fetch that read `0x00`;
that address is not below the starting program counter, and `memory` and the registers
other than the program counter are those of the state before the last iteration. -/
theorem run_halted_inv (n : Nat) (s t : CPU) (h : s.run n = .halted t) :
    ∃ a, s.haltFetch n = some a ∧ s.program_counter ≤ a ∧ a < MEMORY_SIZE ∧
      s.memory a = 0x00 ∧ t.program_counter = a + 1 ∧ t.memory = s.memory := by
  induction n generalizing s with
  | zero => simp [CPU.run] at h
  | succ n ih =>
    cases hs : s.step with
    | next s1 =>
      rw [run_next _ _ _ hs] at h
      obtain ⟨a, ha, hle, hlt, hm, hpc, hmem⟩ := ih s1 h
      obtain ⟨_, hlt1, _, hmem1⟩ := step_next_inv s s1 hs
      refine ⟨a, ?_, by omega, hlt, by rw [← hmem1]; exact hm, hpc, by rw [hmem, hmem1]⟩
      simp only [CPU.haltFetch, hs]
      exact ha
    | halt s1 =>
      rw [run_halt _ _ _ hs] at h
      obtain ⟨hlt, hm, ht⟩ := step_halt_inv s s1 hs
      have hst : s1 = t := by simpa using h
      subst hst
      refine ⟨s.program_counter, ?_, Nat.le_refl _, hlt, hm, by rw [ht], by rw [ht]⟩
      simp only [CPU.haltFetch, hs]
    | fault =>
      rw [run_fault _ _ hs] at h
      cases h

/-- A block of `n` unknown opcodes `u` ahead of the program counter is skipped in `n`
iterations. -/
theorem run_unknown_block (u : Nat) (h0 : u ≠ 0x00) (h1 : u ≠ 0xA9) (h2 : u ≠ 0xAA)
    (h3 : u ≠ 0xE8) (n k : Nat) (s : CPU) (hfit : s.program_counter + n ≤ MEMORY_SIZE)
    (hblock : ∀ i, i < n → s.memory (s.program_counter + i) = u) :
    s.run (n + k) = CPU.run k { s with program_counter := s.program_counter + n } := by
  induction n generalizing s with
  | zero => simp
  | succ n ih =>
    have hm : s.memory s.program_counter = u := by simpa using hblock 0 (by omega)
    have hs := step_unknown s (by omega) (by rw [hm]; exact h0) (by rw [hm]; exact h1)
      (by rw [hm]; exact h2) (by rw [hm]; exact h3)
    rw [Nat.add_right_comm, run_next _ _ _ hs, ih _ (by simp only []; omega)]
    · simp only [Nat.add_assoc, Nat.add_comm 1 n]
    · intro i hi
      have := hblock (i + 1) (by omega)
      simpa [Nat.add_assoc, Nat.add_comm 1 i] using this

/-! ## Iterations inside a loaded program

The state is written out by its fields; `LOAD_BASE + i` is the address of the
byte of index `i` of the program. -/

theorem loaded_eq (mem0 : Nat → Nat) (p : List Nat) :
    loaded mem0 p = ⟨0, 0, 0, LOAD_BASE + 0, memcpy mem0 LOAD_BASE p⟩ := rfl

theorem prog_pc_lt (p : List Nat) (i : Nat) (hlen : LOAD_BASE + p.length ≤ MEMORY_SIZE)
    (h : i < p.length) : LOAD_BASE + i < MEMORY_SIZE := by
  omega

theorem prog_step_LDA (mem0 : Nat → Nat) (p : List Nat)
    (hlen : LOAD_BASE + p.length ≤ MEMORY_SIZE) (a x st i v : Nat) (hi : i + 1 < p.length)
    (hop : p.getD i 0 = 0xA9) (hv : p.getD (i + 1) 0 = v) :
    CPU.step ⟨a, x, st, LOAD_BASE + i, memcpy mem0 LOAD_BASE p⟩ =
      .next ⟨v, x, updateZNFlags st v, LOAD_BASE + (i + 2), memcpy mem0 LOAD_BASE p⟩ := by
  have h1 : (LOAD_BASE + i) + 1 < MEMORY_SIZE := by omega
  have hm : memcpy mem0 LOAD_BASE p (LOAD_BASE + i) = 0xA9 := by
    rw [memcpy_inside _ _ _ _ (by omega), hop]
  have hm1 : memcpy mem0 LOAD_BASE p (LOAD_BASE + (i + 1)) = v := by
    rw [memcpy_inside _ _ _ _ hi, hv]
  rw [step_LDA _ h1 hm]
  simp only [CPU.LDA, Nat.add_assoc, hm1]

theorem prog_step_TAX (mem0 : Nat → Nat) (p : List Nat)
    (hlen : LOAD_BASE + p.length ≤ MEMORY_SIZE) (a x st i : Nat) (hi : i < p.length)
    (hop : p.getD i 0 = 0xAA) :
    CPU.step ⟨a, x, st, LOAD_BASE + i, memcpy mem0 LOAD_BASE p⟩ =
      .next ⟨a, a, updateZNFlags st a, LOAD_BASE + (i + 1), memcpy mem0 LOAD_BASE p⟩ := by
  have hm : memcpy mem0 LOAD_BASE p (LOAD_BASE + i) = 0xAA := by
    rw [memcpy_inside _ _ _ _ hi, hop]
  rw [step_TAX _ (prog_pc_lt p i hlen hi) hm]
  simp only [CPU.TAX, Nat.add_assoc]

theorem prog_step_INX (mem0 : Nat → Nat) (p : List Nat)
    (hlen : LOAD_BASE + p.length ≤ MEMORY_SIZE) (a x st i : Nat) (hi : i < p.length)
    (hop : p.getD i 0 = 0xE8) :
    CPU.step ⟨a, x, st, LOAD_BASE + i, memcpy mem0 LOAD_BASE p⟩ =
      .next ⟨a, (x + 1) % 256, updateZNFlags st ((x + 1) % 256), LOAD_BASE + (i + 1),
        memcpy mem0 LOAD_BASE p⟩ := by
  have hm : memcpy mem0 LOAD_BASE p (LOAD_BASE + i) = 0xE8 := by
    rw [memcpy_inside _ _ _ _ hi, hop]
  rw [step_INX _ (prog_pc_lt p i hlen hi) hm]
  simp only [CPU.INX, Nat.add_assoc]

theorem prog_step_BRK (mem0 : Nat → Nat) (p : List Nat)
    (hlen : LOAD_BASE + p.length ≤ MEMORY_SIZE) (a x st i : Nat) (hi : i < p.length)
    (hop : p.getD i 0 = 0x00) :
    CPU.step ⟨a, x, st, LOAD_BASE + i, memcpy mem0 LOAD_BASE p⟩ =
      .halt ⟨a, x, st, LOAD_BASE + (i + 1), memcpy mem0 LOAD_BASE p⟩ := by
  have hm : memcpy mem0 LOAD_BASE p (LOAD_BASE + i) = 0x00 := by
    rw [memcpy_inside _ _ _ _ hi, hop]
  rw [step_BRK _ (prog_pc_lt p i hlen hi) hm]
  simp only [Nat.add_assoc]

theorem prog_step_unknown (mem0 : Nat → Nat) (p : List Nat)
    (hlen : LOAD_BASE + p.length ≤ MEMORY_SIZE) (a x st i u : Nat) (hi : i < p.length)
    (hop : p.getD i 0 = u) (h0 : u ≠ 0x00) (h1 : u ≠ 0xA9) (h2 : u ≠ 0xAA) (h3 : u ≠ 0xE8) :
    CPU.step ⟨a, x, st, LOAD_BASE + i, memcpy mem0 LOAD_BASE p⟩ =
      .next ⟨a, x, st, LOAD_BASE + (i + 1), memcpy mem0 LOAD_BASE p⟩ := by
  have hm : memcpy mem0 LOAD_BASE p (LOAD_BASE + i) = u := by
    rw [memcpy_inside _ _ _ _ hi, hop]
  rw [step_unknown _ (prog_pc_lt p i hlen hi) (by simpa [hm] using h0) (by simpa [hm] using h1)
    (by simpa [hm] using h2) (by simpa [hm] using h3)]
  simp only [Nat.add_assoc]

/-- A program of at most `0x7FFF` bytes fits between `0x8000` and the end of the array. -/
theorem fits_of_length_le (p : List Nat) (h : p.length ≤ 0x7FFF) :
    LOAD_BASE + p.length ≤ MEMORY_SIZE := by
  unfold LOAD_BASE MEMORY_SIZE
  omega

/-! ## Execution of the small programs of the specification -/

/-- Program `LDA #b; BRK`. -/
theorem exec_lda (mem0 : Nat → Nat) (b : Nat) :
    (loaded mem0 [0xA9, b, 0x00]).run 2 = .halted
      ⟨b, 0, updateZNFlags 0 b, LOAD_BASE + 3, memcpy mem0 LOAD_BASE [0xA9, b, 0x00]⟩ := by
  have hlen : LOAD_BASE + [0xA9, b, 0x00].length ≤ MEMORY_SIZE :=
    fits_of_length_le _ (by simp)
  rw [loaded_eq,
    run_next 1 _ _ (prog_step_LDA mem0 _ hlen 0 0 0 0 b (by simp) rfl rfl),
    run_halt 0 _ _ (prog_step_BRK mem0 _ hlen b 0 (updateZNFlags 0 b) 2 (by simp) rfl)]

/-- Program `LDA #b; TAX; BRK`. -/
theorem exec_lda_tax (mem0 : Nat → Nat) (b : Nat) :
    (loaded mem0 [0xA9, b, 0xAA, 0x00]).run 3 = .halted
      ⟨b, b, updateZNFlags (updateZNFlags 0 b) b, LOAD_BASE + 4,
        memcpy mem0 LOAD_BASE [0xA9, b, 0xAA, 0x00]⟩ := by
  have hlen : LOAD_BASE + [0xA9, b, 0xAA, 0x00].length ≤ MEMORY_SIZE :=
    fits_of_length_le _ (by simp)
  rw [loaded_eq,
    run_next 2 _ _ (prog_step_LDA mem0 _ hlen 0 0 0 0 b (by simp) rfl rfl),
    run_next 1 _ _ (prog_step_TAX mem0 _ hlen b 0 (updateZNFlags 0 b) 2 (by simp) rfl),
    run_halt 0 _ _ (prog_step_BRK mem0 _ hlen b b _ 3 (by simp) rfl)]

/-- Program `LDA #b; TAX; INX; BRK`. -/
theorem exec_lda_tax_inx (mem0 : Nat → Nat) (b : Nat) :
    (loaded mem0 [0xA9, b, 0xAA, 0xE8, 0x00]).run 4 = .halted
      ⟨b, (b + 1) % 256,
        updateZNFlags (updateZNFlags (updateZNFlags 0 b) b) ((b + 1) % 256),
        LOAD_BASE + 5, memcpy mem0 LOAD_BASE [0xA9, b, 0xAA, 0xE8, 0x00]⟩ := by
  have hlen : LOAD_BASE + [0xA9, b, 0xAA, 0xE8, 0x00].length ≤ MEMORY_SIZE :=
    fits_of_length_le _ (by simp)
  rw [loaded_eq,
    run_next 3 _ _ (prog_step_LDA mem0 _ hlen 0 0 0 0 b (by simp) rfl rfl),
    run_next 2 _ _ (prog_step_TAX mem0 _ hlen b 0 (updateZNFlags 0 b) 2 (by simp) rfl),
    run_next 1 _ _ (prog_step_INX mem0 _ hlen b b _ 3 (by simp) rfl),
    run_halt 0 _ _ (prog_step_BRK mem0 _ hlen b _ _ 4 (by simp) rfl)]

/-- Program `LDA #b; INX; BRK`. -/
theorem exec_lda_inx (mem0 : Nat → Nat) (b : Nat) :
    (loaded mem0 [0xA9, b, 0xE8, 0x00]).run 3 = .halted
      ⟨b, 1, updateZNFlags (updateZNFlags 0 b) 1, LOAD_BASE + 4,
        memcpy mem0 LOAD_BASE [0xA9, b, 0xE8, 0x00]⟩ := by
  have hlen : LOAD_BASE + [0xA9, b, 0xE8, 0x00].length ≤ MEMORY_SIZE :=
    fits_of_length_le _ (by simp)
  rw [loaded_eq,
    run_next 2 _ _ (prog_step_LDA mem0 _ hlen 0 0 0 0 b (by simp) rfl rfl),
    run_next 1 _ _ (prog_step_INX mem0 _ hlen b 0 (updateZNFlags 0 b) 2 (by simp) rfl),
    run_halt 0 _ _ (prog_step_BRK mem0 _ hlen b _ _ 3 (by simp) rfl)]

/-- Program of an unknown opcode `u`, then `LDA #b; BRK`. -/
theorem exec_unknown_lda (mem0 : Nat → Nat) (u b : Nat)
    (h0 : u ≠ 0x00) (h1 : u ≠ 0xA9) (h2 : u ≠ 0xAA) (h3 : u ≠ 0xE8) :
    (loaded mem0 [u, 0xA9, b, 0x00]).run 3 = .halted
      ⟨b, 0, updateZNFlags 0 b, LOAD_BASE + 4, memcpy mem0 LOAD_BASE [u, 0xA9, b, 0x00]⟩ := by
  have hlen : LOAD_BASE + [u, 0xA9, b, 0x00].length ≤ MEMORY_SIZE :=
    fits_of_length_le _ (by simp)
  rw [loaded_eq,
    run_next 2 _ _ (prog_step_unknown mem0 _ hlen 0 0 0 0 u (by simp) rfl h0 h1 h2 h3),
    run_next 1 _ _ (prog_step_LDA mem0 _ hlen 0 0 0 1 b (by simp) rfl rfl),
    run_halt 0 _ _ (prog_step_BRK mem0 _ hlen b 0 (updateZNFlags 0 b) 3 (by simp) rfl)]

/-- A program that starts with `0x00` returns at the first fetch. -/
theorem exec_brk_first (mem0 : Nat → Nat) (rest : List Nat)
    (hlen : LOAD_BASE + (0x00 :: rest).length ≤ MEMORY_SIZE) :
    (loaded mem0 (0x00 :: rest)).run 1 = .halted
      ⟨0, 0, 0, LOAD_BASE + 1, memcpy mem0 LOAD_BASE (0x00 :: rest)⟩ := by
  rw [loaded_eq,
    run_halt 0 _ _ (prog_step_BRK mem0 _ hlen 0 0 0 0 (by simp) rfl)]

/-! ## The claims -/

/-- C1. For every byte `b`, constructing a CPU, loading `[0xA9, b, 0x00]` and running
returns (after two iterations, and for every larger bound) with `register_A == b`,
the Zero flag (status bit 1) set iff `b == 0` and the Negative flag (status bit 7)
set iff `b & 0x80 != 0`; the prior memory content `mem0` is arbitrary. -/
theorem C1_lda_immediate (mem0 : Nat → Nat) (b k : Nat) (hb : b < 256) :
    ∃ s, loadAndRun (2 + k) mem0 [0xA9, b, 0x00] = .halted s ∧
      s.register_A = b ∧
      ((s.status &&& FLAG_Z ≠ 0) ↔ b = 0) ∧
      ((s.status &&& FLAG_N ≠ 0) ↔ b &&& 0x80 ≠ 0) := by
  refine ⟨⟨b, 0, updateZNFlags 0 b, LOAD_BASE + 3, memcpy mem0 LOAD_BASE [0xA9, b, 0x00]⟩,
    ?_, rfl, updateZNFlags_flagZ 0 b (by decide) hb, updateZNFlags_flagN 0 b (by decide) hb⟩
  rw [loadAndRun_eq _ _ _ (fits_of_length_le _ (by simp))]
  exact run_halted_add 2 k _ _ (exec_lda mem0 b)

theorem C1_lda_immediate_witness :
    (0x80 : Nat) < 256 ∧
    ∃ s, loadAndRun (2 + 0) (fun _ => 0xEA) [0xA9, 0x80, 0x00] = .halted s ∧
      s.register_A = 0x80 ∧
      ((s.status &&& FLAG_Z ≠ 0) ↔ (0x80 : Nat) = 0) ∧
      ((s.status &&& FLAG_N ≠ 0) ↔ (0x80 : Nat) &&& 0x80 ≠ 0) :=
  ⟨by decide, C1_lda_immediate (fun _ => 0xEA) 0x80 0 (by decide)⟩

/-- C2. For every byte `b`, constructing a CPU, loading `[0xA9, b, 0xAA, 0x00]` and
running returns with `register_X == b` and `register_A == b`; Zero is set iff
`b == 0`, Negative iff bit 7 of `b` is set, and the status equals the status that
`[0xA9, b, 0x00]` (the LDA alone) leaves. -/
theorem C2_lda_tax (mem0 : Nat → Nat) (b k : Nat) (hb : b < 256) :
    ∃ s, loadAndRun (3 + k) mem0 [0xA9, b, 0xAA, 0x00] = .halted s ∧
      s.register_X = b ∧ s.register_A = b ∧
      ((s.status &&& FLAG_Z ≠ 0) ↔ b = 0) ∧
      ((s.status &&& FLAG_N ≠ 0) ↔ b &&& 0x80 ≠ 0) ∧
      ∃ s1, loadAndRun (2 + k) mem0 [0xA9, b, 0x00] = .halted s1 ∧ s.status = s1.status := by
  have hlt : updateZNFlags 0 b < 256 := updateZNFlags_lt 0 b
  refine ⟨⟨b, b, updateZNFlags (updateZNFlags 0 b) b, LOAD_BASE + 4,
      memcpy mem0 LOAD_BASE [0xA9, b, 0xAA, 0x00]⟩,
    ?_, rfl, rfl, updateZNFlags_flagZ _ b hlt hb, updateZNFlags_flagN _ b hlt hb,
    ⟨b, 0, updateZNFlags 0 b, LOAD_BASE + 3, memcpy mem0 LOAD_BASE [0xA9, b, 0x00]⟩,
    ?_, updateZNFlags_idem 0 b (by decide) hb⟩
  · rw [loadAndRun_eq _ _ _ (fits_of_length_le _ (by simp))]
    exact run_halted_add 3 k _ _ (exec_lda_tax mem0 b)
  · rw [loadAndRun_eq _ _ _ (fits_of_length_le _ (by simp))]
    exact run_halted_add 2 k _ _ (exec_lda mem0 b)

theorem C2_lda_tax_witness :
    (0 : Nat) < 256 ∧
    ∃ s, loadAndRun (3 + 0) (fun _ => 0xEA) [0xA9, 0, 0xAA, 0x00] = .halted s ∧
      s.register_X = 0 ∧ s.register_A = 0 ∧
      ((s.status &&& FLAG_Z ≠ 0) ↔ (0 : Nat) = 0) ∧
      ((s.status &&& FLAG_N ≠ 0) ↔ (0 : Nat) &&& 0x80 ≠ 0) ∧
      ∃ s1, loadAndRun (2 + 0) (fun _ => 0xEA) [0xA9, 0, 0x00] = .halted s1 ∧
        s.status = s1.status :=
  ⟨by decide, C2_lda_tax (fun _ => 0xEA) 0 0 (by decide)⟩

/-- C3. INX increments `register_X` modulo 256: for every byte `b`, constructing a CPU,
loading `[0xA9, b, 0xAA, 0xE8, 0x00]` and running returns with `register_A == b`,
`register_X == (b + 1) mod 256`, Zero set iff the new `register_X` is 0 and Negative
set iff bit 7 of the new `register_X` is set; for `b == 0xFF` `register_X` is `0x00`,
Zero is set and Negative is clear. -/
theorem C3_inx_wraps (mem0 : Nat → Nat) (b k : Nat) (hb : b < 256) :
    ∃ s, loadAndRun (4 + k) mem0 [0xA9, b, 0xAA, 0xE8, 0x00] = .halted s ∧
      s.register_A = b ∧ s.register_X = (b + 1) % 256 ∧
      ((s.status &&& FLAG_Z ≠ 0) ↔ (b + 1) % 256 = 0) ∧
      ((s.status &&& FLAG_N ≠ 0) ↔ ((b + 1) % 256) &&& 0x80 ≠ 0) ∧
      (b = 0xFF → s.register_X = 0x00 ∧ s.status &&& FLAG_Z ≠ 0 ∧ s.status &&& FLAG_N = 0) := by
  have hlt : updateZNFlags (updateZNFlags 0 b) b < 256 := updateZNFlags_lt _ b
  have hx : (b + 1) % 256 < 256 := Nat.mod_lt _ (by decide)
  have hZ := updateZNFlags_flagZ _ _ hlt hx
  have hN := updateZNFlags_flagN _ _ hlt hx
  refine ⟨⟨b, (b + 1) % 256,
      updateZNFlags (updateZNFlags (updateZNFlags 0 b) b) ((b + 1) % 256),
      LOAD_BASE + 5, memcpy mem0 LOAD_BASE [0xA9, b, 0xAA, 0xE8, 0x00]⟩,
    ?_, rfl, rfl, hZ, hN, ?_⟩
  · rw [loadAndRun_eq _ _ _ (fits_of_length_le _ (by simp))]
    exact run_halted_add 4 k _ _ (exec_lda_tax_inx mem0 b)
  · intro hff
    subst hff
    refine ⟨rfl, hZ.mpr rfl, ?_⟩
    by_contra hne
    exact absurd (hN.mp hne) (by decide)

theorem C3_inx_wraps_witness :
    (0xFE : Nat) < 256 ∧
    ∃ s, loadAndRun (4 + 0) (fun _ => 0xEA) [0xA9, 0xFE, 0xAA, 0xE8, 0x00] = .halted s ∧
      s.register_A = 0xFE ∧ s.register_X = (0xFE + 1) % 256 ∧
      ((s.status &&& FLAG_Z ≠ 0) ↔ (0xFE + 1) % 256 = 0) ∧
      ((s.status &&& FLAG_N ≠ 0) ↔ ((0xFE + 1) % 256) &&& 0x80 ≠ 0) ∧
      ((0xFE : Nat) = 0xFF →
        s.register_X = 0x00 ∧ s.status &&& FLAG_Z ≠ 0 ∧ s.status &&& FLAG_N = 0) :=
  ⟨by decide, C3_inx_wraps (fun _ => 0xEA) 0xFE 0 (by decide)⟩

/-- C4. For every byte `b`, constructing a CPU, loading `[0xA9, b, 0xE8, 0x00]` and
running returns with `register_X == 1` (one increment from the 0 of the constructor),
`register_A == b`, Zero clear and Negative clear. -/
theorem C4_inx_from_reset (mem0 : Nat → Nat) (b k : Nat) (_hb : b < 256) :
    ∃ s, loadAndRun (3 + k) mem0 [0xA9, b, 0xE8, 0x00] = .halted s ∧
      s.register_X = 1 ∧ s.register_A = b ∧
      s.status &&& FLAG_Z = 0 ∧ s.status &&& FLAG_N = 0 := by
  have hlt : updateZNFlags 0 b < 256 := updateZNFlags_lt 0 b
  have hZ := updateZNFlags_flagZ (updateZNFlags 0 b) 1 hlt (by decide)
  have hN := updateZNFlags_flagN (updateZNFlags 0 b) 1 hlt (by decide)
  refine ⟨⟨b, 1, updateZNFlags (updateZNFlags 0 b) 1, LOAD_BASE + 4,
      memcpy mem0 LOAD_BASE [0xA9, b, 0xE8, 0x00]⟩, ?_, rfl, rfl, ?_, ?_⟩
  · rw [loadAndRun_eq _ _ _ (fits_of_length_le _ (by simp))]
    exact run_halted_add 3 k _ _ (exec_lda_inx mem0 b)
  · by_contra hne
    exact absurd (hZ.mp hne) (by decide)
  · by_contra hne
    exact absurd (hN.mp hne) (by decide)

theorem C4_inx_from_reset_witness :
    (0xFF : Nat) < 256 ∧
    ∃ s, loadAndRun (3 + 0) (fun _ => 0xEA) [0xA9, 0xFF, 0xE8, 0x00] = .halted s ∧
      s.register_X = 1 ∧ s.register_A = 0xFF ∧
      s.status &&& FLAG_Z = 0 ∧ s.status &&& FLAG_N = 0 :=
  ⟨by decide, C4_inx_from_reset (fun _ => 0xEA) 0xFF 0 (by decide)⟩

/-- C5. Unknown opcodes are skipped as bare one-byte instructions: for every byte `u`
not in `{0x00, 0xA9, 0xAA, 0xE8}`, an iteration that fetches `u` continues with
`program_counter` advanced by exactly 1 and `register_A`, `register_X`, `status` and
`memory` unchanged; and for every byte `b`, constructing a CPU, loading
`[u, 0xA9, b, 0x00]` and running returns with `register_A == b`. -/
theorem C5_unknown_opcode_skipped (u : Nat) (_hu : u < 256)
    (h0 : u ≠ 0x00) (h1 : u ≠ 0xA9) (h2 : u ≠ 0xAA) (h3 : u ≠ 0xE8) :
    (∀ s : CPU, s.memoryRead s.program_counter = some u →
      s.step = .next { s with program_counter := s.program_counter + 1 }) ∧
    (∀ (mem0 : Nat → Nat) (b k : Nat), b < 256 →
      ∃ s, loadAndRun (3 + k) mem0 [u, 0xA9, b, 0x00] = .halted s ∧ s.register_A = b) := by
  constructor
  · intro s hs
    unfold CPU.memoryRead at hs
    split at hs
    · rename_i hlt
      have hm : s.memory s.program_counter = u := by simpa using hs
      exact step_unknown s hlt (by rw [hm]; exact h0) (by rw [hm]; exact h1)
        (by rw [hm]; exact h2) (by rw [hm]; exact h3)
    · cases hs
  · intro mem0 b k _
    refine ⟨⟨b, 0, updateZNFlags 0 b, LOAD_BASE + 4,
      memcpy mem0 LOAD_BASE [u, 0xA9, b, 0x00]⟩, ?_, rfl⟩
    rw [loadAndRun_eq _ _ _ (fits_of_length_le _ (by simp))]
    exact run_halted_add 3 k _ _ (exec_unknown_lda mem0 u b h0 h1 h2 h3)

theorem C5_unknown_opcode_skipped_witness :
    ((0xFF : Nat) < 256 ∧ (0xFF : Nat) ≠ 0x00 ∧ (0xFF : Nat) ≠ 0xA9 ∧ (0xFF : Nat) ≠ 0xAA ∧
      (0xFF : Nat) ≠ 0xE8) ∧
    (∀ s : CPU, s.memoryRead s.program_counter = some 0xFF →
      s.step = .next { s with program_counter := s.program_counter + 1 }) ∧
    (∀ (mem0 : Nat → Nat) (b k : Nat), b < 256 →
      ∃ s, loadAndRun (3 + k) mem0 [0xFF, 0xA9, b, 0x00] = .halted s ∧ s.register_A = b) :=
  ⟨by decide, C5_unknown_opcode_skipped 0xFF (by decide) (by decide) (by decide) (by decide)
    (by decide)⟩

/-- C6. Halt is immediate: for every program whose first byte is `0x00` (and which
`load` can copy inside the array), constructing a CPU, loading it and running returns
after a single fetch with `register_A == 0`, `register_X == 0` and `status == 0` as
constructed, whatever the bytes after the `0x00` are; the fetch that returned is the
one at `0x8000`. -/
theorem C6_halt_immediate (mem0 : Nat → Nat) (rest : List Nat) (k : Nat)
    (hfit : (0x00 :: rest).length ≤ 0x7FFF) :
    ∃ s, loadAndRun (1 + k) mem0 (0x00 :: rest) = .halted s ∧
      s.register_A = 0 ∧ s.register_X = 0 ∧ s.status = 0 ∧
      s.program_counter = 0x8001 ∧
      (loaded mem0 (0x00 :: rest)).haltFetch 1 = some 0x8000 := by
  have hlen := fits_of_length_le _ hfit
  refine ⟨⟨0, 0, 0, LOAD_BASE + 1, memcpy mem0 LOAD_BASE (0x00 :: rest)⟩,
    ?_, rfl, rfl, rfl, rfl, ?_⟩
  · rw [loadAndRun_eq _ _ _ hlen]
    exact run_halted_add 1 k _ _ (exec_brk_first mem0 rest hlen)
  · rw [loaded_eq]
    simp only [CPU.haltFetch, prog_step_BRK mem0 _ hlen 0 0 0 0 (by simp) rfl]
    rfl

theorem C6_halt_immediate_witness :
    ([0x00, 0xA9, 0x05] : List Nat).length ≤ 0x7FFF ∧
    ∃ s, loadAndRun (1 + 0) (fun _ => 0xEA) [0x00, 0xA9, 0x05] = .halted s ∧
      s.register_A = 0 ∧ s.register_X = 0 ∧ s.status = 0 ∧
      s.program_counter = 0x8001 ∧
      (loaded (fun _ => 0xEA) [0x00, 0xA9, 0x05]).haltFetch 1 = some 0x8000 :=
  ⟨by decide, C6_halt_immediate (fun _ => 0xEA) [0xA9, 0x05] 0 (by decide)⟩

/-- C7, the code at the failing input.  A program of exactly `0x8000` bytes is within
the bound of the claim, but its last byte is copied to index `0xFFFF`, which is not a cell
of `uint8_t memory[0xFFFF]`: `load` has no defined result for it.  For every program
of at most `0x7FFF` bytes `load` does what the claim says: `memory[0x8000 + i] == p[i]`,
`program_counter == 0x8000`, and the registers, the status and every other memory
byte are unchanged. -/
theorem C7_load_full_size_out_of_bounds :
    ((List.replicate 0x8000 0xEA).length ≤ 0x8000 ∧
      ∀ mem0 : Nat → Nat, (CPU.new mem0).load (List.replicate 0x8000 0xEA) = none) ∧
    (∀ (s : CPU) (p : List Nat), p.length = 0x8000 → s.load p = none) ∧
    (∀ (s : CPU) (p : List Nat), p.length ≤ 0x7FFF →
      ∃ s1, s.load p = some s1 ∧
        (∀ i (h : i < p.length), s1.memory (0x8000 + i) = p[i]) ∧
        s1.program_counter = 0x8000 ∧
        s1.register_A = s.register_A ∧ s1.register_X = s.register_X ∧
        s1.status = s.status ∧
        ∀ a, a < 0x8000 ∨ 0x8000 + p.length ≤ a → s1.memory a = s.memory a) := by
  have hfull : ∀ (s : CPU) (p : List Nat), p.length = 0x8000 → s.load p = none := by
    intro s p hp
    apply load_eq_none
    rw [hp]
    decide
  refine ⟨⟨Nat.le_of_eq (List.length_replicate _ _),
    fun mem0 => hfull _ _ (List.length_replicate _ _)⟩, hfull, ?_⟩
  intro s p hp
  refine ⟨_, load_eq_some s p (fits_of_length_le p hp), ?_, rfl, rfl, rfl, rfl, ?_⟩
  · intro i h
    show memcpy s.memory LOAD_BASE p (LOAD_BASE + i) = p[i]
    rw [memcpy_inside _ _ _ _ h, List.getD_eq_getElem _ _ h]
  · intro a ha
    exact memcpy_outside s.memory LOAD_BASE p a ha

/-- C8. Whenever `run` returns, the final `program_counter` is one past the address at
which the returning `0x00` was fetched, and `memory[(program_counter - 1) mod 65536]`
is `0x00`; for a loaded program the fetch address is `0x8000 + k` for some `k`, the
final `program_counter` is `0x8000 + k + 1`, and byte `k` of the program is `0x00` when
`k` is an index of the program; for the program of `main.cpp` it is `0x8005`. -/
theorem C8_pc_after_halt :
    (∀ (s t : CPU) (n : Nat), s.run n = .halted t →
      ∃ a, s.haltFetch n = some a ∧ t.program_counter = a + 1 ∧ t.memory a = 0x00 ∧
        t.memory ((t.program_counter + 65535) % 65536) = 0x00 ∧
        t.memory ((t.program_counter - 1) % 65536) = 0x00) ∧
    (∀ (mem0 : Nat → Nat) (p : List Nat) (n : Nat) (t : CPU),
      loadAndRun n mem0 p = .halted t →
      ∃ k, (loaded mem0 p).haltFetch n = some (0x8000 + k) ∧
        t.program_counter = 0x8000 + k + 1 ∧ (k < p.length → p[k]? = some 0x00)) ∧
    (∀ (mem0 : Nat → Nat) (k : Nat),
      ∃ t, loadAndRun (4 + k) mem0 mainProgram = .halted t ∧ t.program_counter = 0x8005) := by
  refine ⟨?_, ?_, ?_⟩
  · intro s t n h
    obtain ⟨a, ha, _, hlt, hm, hpc, hmem⟩ := run_halted_inv n s t h
    have hlt1 : a < 65535 := hlt
    refine ⟨a, ha, hpc, by rw [hmem]; exact hm, ?_, ?_⟩
    · have e : (t.program_counter + 65535) % 65536 = a := by omega
      rw [e, hmem]; exact hm
    · have e : (t.program_counter - 1) % 65536 = a := by omega
      rw [e, hmem]; exact hm
  · intro mem0 p n t h
    by_cases hfit : LOAD_BASE + p.length ≤ MEMORY_SIZE
    · rw [loadAndRun_eq _ _ _ hfit] at h
      obtain ⟨a, ha, hle, _, hm, hpc, _⟩ := run_halted_inv n _ t h
      have hle1 : LOAD_BASE ≤ a := hle
      obtain ⟨k, rfl⟩ := Nat.exists_eq_add_of_le hle1
      refine ⟨k, ha, hpc, ?_⟩
      intro hk
      rw [loaded_memory _ _ _ hk] at hm
      rw [List.getD_eq_getElem _ _ hk] at hm
      rw [List.getElem?_eq_getElem hk, hm]
    · unfold loadAndRun at h
      rw [load_eq_none _ _ (by omega)] at h
      cases h
  · intro mem0 k
    refine ⟨⟨0xFE, (0xFE + 1) % 256,
      updateZNFlags (updateZNFlags (updateZNFlags 0 0xFE) 0xFE) ((0xFE + 1) % 256),
      LOAD_BASE + 5, memcpy mem0 LOAD_BASE [0xA9, 0xFE, 0xAA, 0xE8, 0x00]⟩, ?_, rfl⟩
    unfold mainProgram
    rw [loadAndRun_eq _ _ _ (fits_of_length_le _ (by simp))]
    exact run_halted_add 4 k _ _ (exec_lda_tax_inx mem0 0xFE)

theorem C8_pc_after_halt_witness :
    (loaded (fun _ => 0xEA) [0x00]).run 1 =
      .halted ⟨0, 0, 0, LOAD_BASE + 1, memcpy (fun _ => 0xEA) LOAD_BASE [0x00]⟩ ∧
    ∃ a, (loaded (fun _ => 0xEA) [0x00]).haltFetch 1 = some a ∧
      LOAD_BASE + 1 = a + 1 ∧ memcpy (fun _ => 0xEA) LOAD_BASE [0x00] a = 0x00 ∧
      memcpy (fun _ => 0xEA) LOAD_BASE [0x00] ((LOAD_BASE + 1 + 65535) % 65536) = 0x00 ∧
      memcpy (fun _ => 0xEA) LOAD_BASE [0x00] ((LOAD_BASE + 1 - 1) % 65536) = 0x00 :=
  ⟨exec_brk_first _ [] (by decide),
    C8_pc_after_halt.1 _ _ 1 (exec_brk_first (fun _ => 0xEA) [] (by decide))⟩

/-- C9. `updateZNFlags` on bytes: for every prior status `s` and written byte `v` the
new status is `(s & 0x7D) | (v == 0 ? 0x02 : 0) | (v & 0x80)`; bits 0, 2, 3, 4, 5, 6
are those of `s`, and bits 1 and 7 are the same for every prior status. -/
theorem C9_updateZNFlags_formula (s v : Nat) (hs : s < 256) (hv : v < 256) :
    updateZNFlags s v = (s &&& 0x7D) ||| (if v = 0 then 0x02 else 0) ||| (v &&& 0x80) ∧
    updateZNFlags s v &&& 0x7D = s &&& 0x7D ∧
    ∀ s1, s1 < 256 → updateZNFlags s1 v &&& 0x82 = updateZNFlags s v &&& 0x82 := by
  refine ⟨updateZNFlags_eq s v hs hv, updateZNFlags_other_bits s v hs hv, ?_⟩
  intro s1 hs1
  rw [updateZNFlags_ZN_bits s1 v hs1 hv, updateZNFlags_ZN_bits s v hs hv]

theorem C9_updateZNFlags_formula_witness :
    ((0xFF : Nat) < 256 ∧ (0x80 : Nat) < 256) ∧
    updateZNFlags 0xFF 0x80 =
      (0xFF &&& 0x7D) ||| (if (0x80 : Nat) = 0 then 0x02 else 0) ||| (0x80 &&& 0x80) ∧
    updateZNFlags 0xFF 0x80 &&& 0x7D = 0xFF &&& 0x7D ∧
    ∀ s1, s1 < 256 → updateZNFlags s1 0x80 &&& 0x82 = updateZNFlags 0xFF 0x80 &&& 0x82 :=
  ⟨by decide, C9_updateZNFlags_formula 0xFF 0x80 (by decide) (by decide)⟩

/-- C10, the code at the failing input.  `memory` has `0xFFFF` cells, not 65536: with
`program_counter == 0xFFFF` the opcode fetch reads outside the array, and with
`program_counter == 0xFFFE` on an LDA the operand read does; a program of `0x7FFF`
unknown opcodes `0xEA`, loaded into a constructed CPU, brings `run` to the fetch at
`0xFFFF` after `0x7FFF` iterations. -/
theorem C10_fetch_at_0xFFFF_out_of_bounds :
    MEMORY_SIZE = 0xFFFF ∧
    (∀ s : CPU, s.program_counter = 0xFFFF →
      s.memoryRead s.program_counter = none ∧ s.step = .fault) ∧
    (∀ s : CPU, s.program_counter = 0xFFFE → s.memory 0xFFFE = 0xA9 → s.step = .fault) ∧
    (∀ (mem0 : Nat → Nat) (k : Nat),
      loadAndRun (0x8000 + k) mem0 (List.replicate 0x7FFF 0xEA) = .fault) := by
  refine ⟨rfl, ?_, ?_, ?_⟩
  · intro s hs
    refine ⟨?_, step_fault s (by rw [hs]; decide)⟩
    unfold CPU.memoryRead
    rw [hs, if_neg (by decide)]
  · intro s hs hop
    exact step_LDA_fault s (by rw [hs]; decide) (by rw [hs]; decide) (by rw [hs]; exact hop)
  · intro mem0 k
    have hlen : LOAD_BASE + (List.replicate 0x7FFF 0xEA).length ≤ MEMORY_SIZE :=
      fits_of_length_le _ (Nat.le_of_eq (List.length_replicate _ _))
    have hk : 0x8000 + k = 0x7FFF + (k + 1) := by omega
    rw [loadAndRun_eq _ _ _ hlen, hk,
      run_unknown_block 0xEA (by decide) (by decide) (by decide) (by decide) 0x7FFF (k + 1)
        (loaded mem0 (List.replicate 0x7FFF 0xEA))
        (show LOAD_BASE + 0x7FFF ≤ MEMORY_SIZE by decide)]
    · exact run_fault k _ (step_fault _ (show MEMORY_SIZE ≤ LOAD_BASE + 0x7FFF by decide))
    · intro i hi
      show (loaded mem0 (List.replicate 0x7FFF 0xEA)).memory (LOAD_BASE + i) = 0xEA
      rw [loaded_memory _ _ _ (by rw [List.length_replicate]; exact hi),
        List.getD_eq_getElem?_getD, List.getElem?_replicate_of_lt hi]
      rfl

/-! ## The stores of `load` -/

/-- Applying the stores of `memcpy` gives the content function `memcpy`. -/
theorem applyStores_memcpyStores (src : List Nat) (m : Nat → Nat) (d : Nat) :
    applyStores m (memcpyStores d src) = memcpy m d src := by
  induction src generalizing m d with
  | nil =>
    funext a
    have h : ¬ (d ≤ a ∧ a < d + ([] : List Nat).length) := by
      simp only [List.length_nil]; omega
    simp only [memcpyStores, applyStores, memcpy, if_neg h]
  | cons b rest ih =>
    funext a
    simp only [memcpyStores, applyStores]
    rw [ih]
    unfold memcpy
    by_cases h1 : a = d
    · subst h1
      simp
    · by_cases h2 : d + 1 ≤ a ∧ a < d + 1 + rest.length
      · have h3 : d ≤ a ∧ a < d + (b :: rest).length := by
          simp only [List.length_cons]; omega
        have h4 : a - d = (a - (d + 1)) + 1 := by omega
        rw [if_pos h2, if_pos h3, h4]
        rfl
      · have h3 : ¬ (d ≤ a ∧ a < d + (b :: rest).length) := by
          simp only [List.length_cons]; omega
        rw [if_neg h2, if_neg h3]
        show (if a = d then b else m a) = m a
        rw [if_neg h1]

/-- The stores of `memcpy` are the stores `memory[dst + i] = src[i]`, `i < src.size()`. -/
theorem mem_memcpyStores (src : List Nat) (d a b : Nat) :
    (a, b) ∈ memcpyStores d src ↔ ∃ i, i < src.length ∧ a = d + i ∧ src[i]? = some b := by
  induction src generalizing d with
  | nil => simp [memcpyStores]
  | cons x rest ih =>
    simp only [memcpyStores, List.mem_cons, Prod.mk.injEq, ih, List.length_cons]
    constructor
    · rintro (⟨ha, hb⟩ | ⟨i, hi, ha, hb⟩)
      · exact ⟨0, by omega, by omega, by simp [hb]⟩
      · exact ⟨i + 1, by omega, by omega, by simpa using hb⟩
    · rintro ⟨i, hi, ha, hb⟩
      cases i with
      | zero =>
        left
        exact ⟨by omega, by simpa using hb.symm⟩
      | succ j =>
        right
        exact ⟨j, by omega, by omega, by simpa using hb⟩

theorem length_memcpyStores (src : List Nat) (d : Nat) :
    (memcpyStores d src).length = src.length := by
  induction src generalizing d with
  | nil => rfl
  | cons x rest ih => simp [memcpyStores, ih]

/-- C11, the code at the failing input.  A program of exactly `0x8000` bytes is within
the bound `0x10000 - 0x8000`, but the store of its last byte has destination index
`0x8000 + 0x7FFF = 0xFFFF`, which is not an index of `uint8_t memory[0xFFFF]`.  For
programs of at most `0x7FFF` bytes every destination index is inside the array. -/
theorem C11_load_store_past_array_end :
    ((List.replicate 0x8000 0xEA).length ≤ 0x10000 - 0x8000 ∧
      (0xFFFF, 0xEA) ∈ memcpyStores LOAD_BASE (List.replicate 0x8000 0xEA) ∧
      ¬ (0xFFFF < MEMORY_SIZE)) ∧
    (∀ p : List Nat, p.length = 0x8000 →
      ∃ i b, i < p.length ∧ (LOAD_BASE + i, b) ∈ memcpyStores LOAD_BASE p ∧
        ¬ (LOAD_BASE + i < MEMORY_SIZE)) ∧
    (∀ p : List Nat, p.length ≤ 0x7FFF →
      ∀ st, st ∈ memcpyStores LOAD_BASE p → st.1 < MEMORY_SIZE) := by
  refine ⟨⟨Nat.le_of_eq (List.length_replicate _ _), ?_, by decide⟩, ?_, ?_⟩
  · rw [mem_memcpyStores]
    have hi : 0x7FFF < 0x8000 := by decide
    exact ⟨0x7FFF, by rw [List.length_replicate]; exact hi, by decide,
      List.getElem?_replicate_of_lt hi⟩
  · intro p hp
    have hi : 0x7FFF < p.length := by omega
    refine ⟨0x7FFF, p[0x7FFF], hi, ?_, by decide⟩
    rw [mem_memcpyStores]
    exact ⟨0x7FFF, hi, rfl, List.getElem?_eq_getElem hi⟩
  · intro p hp st hst
    obtain ⟨a, b⟩ := st
    rw [mem_memcpyStores] at hst
    obtain ⟨i, hi, ha, _⟩ := hst
    show a < MEMORY_SIZE
    unfold LOAD_BASE at ha
    unfold MEMORY_SIZE
    omega

/-- C12, the code at the failing input.  The constructor sets `register_A`,
`register_X`, `status` and `program_counter` to 0 and does not write `memory`: after
construction `memory` is the prior content of the storage of the object, which for
the automatic object of `main.cpp` need not be zero.  Over a storage filled with
`0xEA` the constructed CPU has `memory[0x8000] == 0xEA`, not 0. -/
theorem C12_constructor_leaves_memory :
    (∀ mem0 : Nat → Nat,
      (CPU.new mem0).register_A = 0 ∧ (CPU.new mem0).register_X = 0 ∧
      (CPU.new mem0).status = 0 ∧ (CPU.new mem0).program_counter = 0 ∧
      (CPU.new mem0).memory = mem0) ∧
    (CPU.new (fun _ => 0xEA)).memory 0x8000 = 0xEA ∧
    (CPU.new (fun _ => 0xEA)).memory 0x8000 ≠ 0 ∧
    ¬ (∀ (mem0 : Nat → Nat) (a : Nat), a < MEMORY_SIZE → (CPU.new mem0).memory a = 0) := by
  refine ⟨fun mem0 => ⟨rfl, rfl, rfl, rfl, rfl⟩, rfl, by decide, ?_⟩
  intro h
  exact absurd (h (fun _ => 0xEA) 0x8000 (by decide)) (by decide)

/-- C13, the claim fails at a concrete input.  The program `[0xEA]` contains no `0x00`
byte; loaded into a CPU constructed over zeroed storage, `run` skips the unknown
opcode and returns at its second fetch, which reads the `0x00` that the storage held
at `0x8001`. -/
theorem C13_counterexample :
    (∀ x, x ∈ [0xEA] → x ≠ 0x00) ∧
    loadAndRun 2 (fun _ => 0) [0xEA] =
      .halted ⟨0, 0, 0, LOAD_BASE + 2, memcpy (fun _ => 0) LOAD_BASE [0xEA]⟩ := by
  refine ⟨by decide, ?_⟩
  have hlen : LOAD_BASE + [0xEA].length ≤ MEMORY_SIZE := fits_of_length_le _ (by simp)
  have hm : memcpy (fun _ => 0) LOAD_BASE [0xEA] (LOAD_BASE + (0 + 1)) = 0x00 := by
    rw [memcpy_outside _ _ _ (LOAD_BASE + (0 + 1))
      (Or.inr (show LOAD_BASE + [0xEA].length ≤ LOAD_BASE + (0 + 1) from Nat.le_refl _))]
  have e2 : CPU.step ⟨0, 0, 0, LOAD_BASE + (0 + 1), memcpy (fun _ => 0) LOAD_BASE [0xEA]⟩ =
      .halt ⟨0, 0, 0, LOAD_BASE + 2, memcpy (fun _ => 0) LOAD_BASE [0xEA]⟩ :=
    step_BRK _ (show LOAD_BASE + (0 + 1) < MEMORY_SIZE by decide) hm
  rw [loadAndRun_eq _ _ _ hlen, loaded_eq,
    run_next 1 _ _ (prog_step_unknown (fun _ => 0) _ hlen 0 0 0 0 0xEA (by simp) rfl
      (by decide) (by decide) (by decide) (by decide)),
    run_halt 0 _ _ e2]

/-- C15. One iteration of the loop implements the instruction table.  With
`op = memory[program_counter]` read inside the array: if `op == 0xA9` and the operand
`memory[program_counter + 1]` is read inside the array, `register_A` becomes the
operand, `program_counter` advances by 2 and the status is recomputed from the new
`register_A`; if `op == 0xAA`, `register_X` becomes `register_A`, `program_counter`
advances by 1 and the status is recomputed from `register_X`; if `op == 0xE8`,
`register_X` becomes `(register_X + 1) mod 256`, `program_counter` advances by 1 and the
status is recomputed from `register_X`; if `op == 0x00` the loop returns with
`program_counter` advanced by 1 and nothing else changed.  Recomputing the status
from a byte sets Zero iff the byte is 0 and Negative iff its bit 7 is set. -/
theorem C15_step_instruction_table (s : CPU) (op : Nat)
    (hop : s.memoryRead s.program_counter = some op) :
    (op = 0xA9 → ∀ v, s.memoryRead (s.program_counter + 1) = some v →
      s.step = .next { s with register_A := v, status := updateZNFlags s.status v,
                              program_counter := s.program_counter + 2 }) ∧
    (op = 0xAA →
      s.step = .next { s with register_X := s.register_A,
                              status := updateZNFlags s.status s.register_A,
                              program_counter := s.program_counter + 1 }) ∧
    (op = 0xE8 →
      s.step = .next { s with register_X := (s.register_X + 1) % 256,
                              status := updateZNFlags s.status ((s.register_X + 1) % 256),
                              program_counter := s.program_counter + 1 }) ∧
    (op = 0x00 → s.step = .halt { s with program_counter := s.program_counter + 1 }) ∧
    (∀ st v, st < 256 → v < 256 →
      ((updateZNFlags st v &&& FLAG_Z ≠ 0) ↔ v = 0) ∧
      ((updateZNFlags st v &&& FLAG_N ≠ 0) ↔ v &&& 0x80 ≠ 0)) := by
  obtain ⟨hlt, hm⟩ := memoryRead_eq_some s _ _ hop
  refine ⟨?_, ?_, ?_, ?_, fun st v hst hv =>
    ⟨updateZNFlags_flagZ st v hst hv, updateZNFlags_flagN st v hst hv⟩⟩
  · intro h v hv
    obtain ⟨hlt1, hm1⟩ := memoryRead_eq_some s _ _ hv
    rw [step_LDA s hlt1 (by rw [hm, h])]
    simp only [CPU.LDA, hm1]
  · intro h
    rw [step_TAX s hlt (by rw [hm, h])]
    simp only [CPU.TAX]
  · intro h
    rw [step_INX s hlt (by rw [hm, h])]
    simp only [CPU.INX]
  · intro h
    rw [step_BRK s hlt (by rw [hm, h])]

theorem C15_step_instruction_table_witness :
    CPU.memoryRead ⟨0x7F, 0xFF, 0, 0x8000, fun _ => 0xE8⟩ 0x8000 = some 0xE8 ∧
    CPU.step ⟨0x7F, 0xFF, 0, 0x8000, fun _ => 0xE8⟩ =
      .next ⟨0x7F, (0xFF + 1) % 256, updateZNFlags 0 ((0xFF + 1) % 256), 0x8000 + 1,
        fun _ => 0xE8⟩ :=
  ⟨rfl, (C15_step_instruction_table ⟨0x7F, 0xFF, 0, 0x8000, fun _ => 0xE8⟩ 0xE8 rfl).2.2.1 rfl⟩

/-! ## Frame, status invariant and termination -/

/-- While the loop is still running after `n` iterations, `memory` is as it was and
the program counter has not moved backwards. -/
theorem run_running_inv (n : Nat) (s t : CPU) (h : s.run n = .running t) :
    t.memory = s.memory ∧ s.program_counter ≤ t.program_counter := by
  induction n generalizing s with
  | zero =>
    have e : s = t := by simpa [CPU.run] using h
    subst e
    exact ⟨rfl, Nat.le_refl _⟩
  | succ n ih =>
    cases hs : s.step with
    | next s1 =>
      rw [run_next _ _ _ hs] at h
      obtain ⟨hm, hpc⟩ := ih s1 h
      obtain ⟨_, hlt, _, hm1⟩ := step_next_inv s s1 hs
      exact ⟨by rw [hm, hm1], by omega⟩
    | halt s1 =>
      rw [run_halt _ _ _ hs] at h
      cases h
    | fault =>
      rw [run_fault _ _ hs] at h
      cases h

/-- An iteration that continues leaves the registers as the instruction table says:
by opcode, the effect on `register_A`, `register_X` and `status`. -/
theorem step_next_regs (s s1 : CPU) (h : s.step = .next s1) :
    (s.memory s.program_counter = 0xA9 ∧ s1.register_X = s.register_X ∧
      s1.status = updateZNFlags s.status s1.register_A) ∨
    (s.memory s.program_counter = 0xAA ∧ s1.register_A = s.register_A ∧
      s1.register_X = s.register_A ∧ s1.status = updateZNFlags s.status s1.register_X) ∨
    (s.memory s.program_counter = 0xE8 ∧ s1.register_A = s.register_A ∧
      s1.register_X = (s.register_X + 1) % 256 ∧
      s1.status = updateZNFlags s.status s1.register_X) ∨
    (s.memory s.program_counter ≠ 0xA9 ∧ s.memory s.program_counter ≠ 0xAA ∧
      s.memory s.program_counter ≠ 0xE8 ∧ s1.register_A = s.register_A ∧
      s1.register_X = s.register_X ∧ s1.status = s.status) := by
  by_cases hpc : s.program_counter < MEMORY_SIZE
  · by_cases hA : s.memory s.program_counter = 0xA9
    · by_cases hpc1 : s.program_counter + 1 < MEMORY_SIZE
      · rw [step_LDA s hpc1 hA] at h
        simp only [StepResult.next.injEq] at h
        subst h
        exact Or.inl ⟨hA, rfl, rfl⟩
      · rw [step_LDA_fault s hpc (by omega) hA] at h
        cases h
    · by_cases hT : s.memory s.program_counter = 0xAA
      · rw [step_TAX s hpc hT] at h
        simp only [StepResult.next.injEq] at h
        subst h
        exact Or.inr (Or.inl ⟨hT, rfl, rfl, rfl⟩)
      · by_cases hI : s.memory s.program_counter = 0xE8
        · rw [step_INX s hpc hI] at h
          simp only [StepResult.next.injEq] at h
          subst h
          exact Or.inr (Or.inr (Or.inl ⟨hI, rfl, rfl, rfl⟩))
        · by_cases hB : s.memory s.program_counter = 0x00
          · rw [step_BRK s hpc hB] at h
            cases h
          · rw [step_unknown s hpc hB hA hT hI] at h
            simp only [StepResult.next.injEq] at h
            subst h
            exact Or.inr (Or.inr (Or.inr ⟨hA, hT, hI, rfl, rfl, rfl⟩))
  · rw [step_fault s (by omega)] at h
    cases h

/-- From a status in `{0x00, 0x02, 0x80}`, `updateZNFlags` gives a status in that set,
whatever the written value. -/
theorem updateZNFlags_mem (st v : Nat) (h : st = 0x00 ∨ st = 0x02 ∨ st = 0x80) :
    updateZNFlags st v = 0x00 ∨ updateZNFlags st v = 0x02 ∨ updateZNFlags st v = 0x80 := by
  by_cases h0 : v = 0
  · subst h0
    have hN : ¬ ((0 : Nat) &&& FLAG_N ≠ 0) := by decide
    simp only [updateZNFlags, if_true, if_neg hN]
    rcases h with rfl | rfl | rfl <;> decide
  · simp only [updateZNFlags, if_neg h0]
    rcases h with rfl | rfl | rfl <;> split_ifs <;> decide

theorem load_status (s s1 : CPU) (p : List Nat) (h : s.load p = some s1) :
    s1.status = s.status := by
  unfold CPU.load at h
  split_ifs at h
  simp only [Option.some.injEq] at h
  subst h
  rfl

/-- Every reachable state has its status in `{0x00, 0x02, 0x80}`. -/
theorem reachable_status (s : CPU) (h : Reachable s) :
    s.status = 0x00 ∨ s.status = 0x02 ∨ s.status = 0x80 := by
  induction h with
  | construct mem0 => exact Or.inl rfl
  | load s s1 p _ hl ih => rw [load_status s s1 p hl]; exact ih
  | next s s1 _ hs ih =>
    rcases step_next_regs s s1 hs with ⟨_, _, e⟩ | ⟨_, _, _, e⟩ | ⟨_, _, _, e⟩ |
      ⟨_, _, _, _, _, e⟩
    · rw [e]; exact updateZNFlags_mem _ _ ih
    · rw [e]; exact updateZNFlags_mem _ _ ih
    · rw [e]; exact updateZNFlags_mem _ _ ih
    · rw [e]; exact ih
  | halt s s1 _ hs ih =>
    obtain ⟨_, _, e⟩ := step_halt_inv s s1 hs
    rw [e]; exact ih

/-- The states that `run` passes through and returns in are reachable. -/
theorem reachable_run (n : Nat) (s t : CPU) (hs : Reachable s)
    (h : s.run n = .halted t ∨ s.run n = .running t) : Reachable t := by
  induction n generalizing s with
  | zero =>
    rcases h with h | h
    · simp [CPU.run] at h
    · have e : s = t := by simpa [CPU.run] using h
      subst e
      exact hs
  | succ n ih =>
    cases hst : s.step with
    | next s1 =>
      rw [run_next _ _ _ hst] at h
      exact ih s1 (Reachable.next s s1 hs hst) h
    | halt s1 =>
      rw [run_halt _ _ _ hst] at h
      rcases h with h | h
      · have e : s1 = t := by simpa using h
        subst e
        exact Reachable.halt s s1 hs hst
      · cases h
    | fault =>
      rw [run_fault _ _ hst] at h
      rcases h with h | h <;> cases h

/-- The bits of a status in `{0x00, 0x02, 0x80}`: Zero and Negative are not both set
and the six other bits are 0. -/
theorem status_bits_of_mem (st : Nat) (h : st = 0x00 ∨ st = 0x02 ∨ st = 0x80) :
    ¬ (st &&& FLAG_Z ≠ 0 ∧ st &&& FLAG_N ≠ 0) ∧ st &&& 0x7D = 0 := by
  rcases h with rfl | rfl | rfl <;> decide

/-- C16. The loop of `run` never writes `memory`: after any number of iterations,
returned or still running, every byte of `memory` is as before `run`.  An LDA
iteration leaves `register_X` unchanged; TAX and INX iterations leave `register_A`
unchanged; the same holds of the methods `LDA`, `TAX` and `INX` themselves. -/
theorem C16_run_frame :
    (∀ (s t : CPU) (n : Nat), (s.run n = .halted t ∨ s.run n = .running t) →
      ∀ a, t.memory a = s.memory a) ∧
    (∀ s s1 : CPU, s.step = .next s1 → s.memory s.program_counter = 0xA9 →
      s1.register_X = s.register_X) ∧
    (∀ s s1 : CPU, s.step = .next s1 →
      (s.memory s.program_counter = 0xAA ∨ s.memory s.program_counter = 0xE8) →
      s1.register_A = s.register_A) ∧
    (∀ (s : CPU) (v : Nat), (s.LDA v).register_X = s.register_X ∧
      s.TAX.register_A = s.register_A ∧ s.INX.register_A = s.register_A ∧
      (s.LDA v).memory = s.memory ∧ s.TAX.memory = s.memory ∧ s.INX.memory = s.memory) := by
  refine ⟨?_, ?_, ?_, fun s v => ⟨rfl, rfl, rfl, rfl, rfl, rfl⟩⟩
  · intro s t n h a
    rcases h with h | h
    · obtain ⟨_, _, _, _, _, _, hm⟩ := run_halted_inv n s t h
      rw [hm]
    · rw [(run_running_inv n s t h).1]
  · intro s s1 h hop
    rcases step_next_regs s s1 h with ⟨_, e, _⟩ | ⟨h1, _⟩ | ⟨h1, _⟩ | ⟨h1, _⟩
    · exact e
    · rw [hop] at h1; exact absurd h1 (by decide)
    · rw [hop] at h1; exact absurd h1 (by decide)
    · exact absurd hop h1
  · intro s s1 h hop
    rcases step_next_regs s s1 h with ⟨h1, _⟩ | ⟨_, e, _⟩ | ⟨_, e, _⟩ | ⟨_, _, _, e, _⟩
    · rcases hop with hop | hop <;> rw [hop] at h1 <;> exact absurd h1 (by decide)
    · exact e
    · exact e
    · exact e

theorem C16_run_frame_witness :
    (loaded (fun _ => 0xEA) [0x00]).run 1 =
      .halted ⟨0, 0, 0, LOAD_BASE + 1, memcpy (fun _ => 0xEA) LOAD_BASE [0x00]⟩ ∧
    memcpy (fun _ => 0xEA) LOAD_BASE [0x00] LOAD_BASE =
      (loaded (fun _ => 0xEA) [0x00]).memory LOAD_BASE :=
  ⟨exec_brk_first _ [] (by decide),
    C16_run_frame.1 _ _ 1 (Or.inl (exec_brk_first (fun _ => 0xEA) [] (by decide))) LOAD_BASE⟩

/-- C17. Invariant of the status register over the reachable states.  From a
constructed CPU (`status == 0`), after any `load` calls and any number of iterations,
`status` is one of `0x00`, `0x02`, `0x80`: Zero and Negative are never both set and
the six other bits are 0.  In particular this holds of every state that
construct, `load`, `run` passes through or returns in. -/
theorem C17_status_invariant :
    (∀ s : CPU, Reachable s →
      (s.status = 0x00 ∨ s.status = 0x02 ∨ s.status = 0x80) ∧
      ¬ (s.status &&& FLAG_Z ≠ 0 ∧ s.status &&& FLAG_N ≠ 0) ∧ s.status &&& 0x7D = 0) ∧
    (∀ (mem0 : Nat → Nat) (p : List Nat) (n : Nat) (t : CPU),
      (loadAndRun n mem0 p = .halted t ∨ loadAndRun n mem0 p = .running t) →
      (t.status = 0x00 ∨ t.status = 0x02 ∨ t.status = 0x80) ∧
      ¬ (t.status &&& FLAG_Z ≠ 0 ∧ t.status &&& FLAG_N ≠ 0) ∧ t.status &&& 0x7D = 0) := by
  have key : ∀ s : CPU, Reachable s →
      (s.status = 0x00 ∨ s.status = 0x02 ∨ s.status = 0x80) ∧
      ¬ (s.status &&& FLAG_Z ≠ 0 ∧ s.status &&& FLAG_N ≠ 0) ∧ s.status &&& 0x7D = 0 := by
    intro s hs
    have h := reachable_status s hs
    exact ⟨h, status_bits_of_mem _ h⟩
  refine ⟨key, ?_⟩
  intro mem0 p n t h
  by_cases hfit : LOAD_BASE + p.length ≤ MEMORY_SIZE
  · rw [loadAndRun_eq _ _ _ hfit] at h
    have hl : Reachable (loaded mem0 p) :=
      Reachable.load _ _ p (Reachable.construct mem0) (load_new mem0 p hfit)
    exact key t (reachable_run n _ t hl h)
  · unfold loadAndRun at h
    rw [load_eq_none _ _ (by omega)] at h
    rcases h with h | h <;> cases h

theorem C17_status_invariant_witness :
    Reachable (CPU.new (fun _ => 0xEA)) ∧
    ((CPU.new (fun _ => 0xEA)).status = 0x00 ∨ (CPU.new (fun _ => 0xEA)).status = 0x02 ∨
      (CPU.new (fun _ => 0xEA)).status = 0x80) :=
  ⟨Reachable.construct _,
    (C17_status_invariant.1 (CPU.new (fun _ => 0xEA)) (Reachable.construct _)).1⟩

/-- An iteration on a nonzero opcode whose next address is inside the array continues. -/
theorem step_next_of_ne_zero (s : CPU) (h1 : s.program_counter + 1 < MEMORY_SIZE)
    (hne : s.memory s.program_counter ≠ 0x00) : ∃ s1, s.step = .next s1 := by
  have hpc : s.program_counter < MEMORY_SIZE := by omega
  by_cases hA : s.memory s.program_counter = 0xA9
  · exact ⟨_, step_LDA s h1 hA⟩
  · by_cases hT : s.memory s.program_counter = 0xAA
    · exact ⟨_, step_TAX s hpc hT⟩
    · by_cases hI : s.memory s.program_counter = 0xE8
      · exact ⟨_, step_INX s hpc hI⟩
      · exact ⟨_, step_unknown s hpc hne hA hT hI⟩

/-- With `0x00` at the addresses `a` and `a + 1` inside the array and the program counter
at most `a + 1`, `run` returns within `a + 2 - program_counter` iterations, at a program
counter of at most `a + 2`. -/
theorem run_halts_before (a : Nat) (hin : a + 1 < MEMORY_SIZE) :
    ∀ (m : Nat) (s : CPU), s.memory a = 0x00 → s.memory (a + 1) = 0x00 →
      s.program_counter ≤ a + 1 → a + 2 - s.program_counter ≤ m →
      ∃ n t, 1 ≤ n ∧ n ≤ a + 2 - s.program_counter ∧ s.run n = .halted t ∧
        t.program_counter ≤ a + 2 := by
  intro m
  induction m with
  | zero =>
    intro s _ _ hpc hm
    omega
  | succ m ih =>
    intro s h0 h1 hpc hm
    have hlt : s.program_counter < MEMORY_SIZE := by omega
    by_cases hz : s.memory s.program_counter = 0x00
    · refine ⟨1, _, Nat.le_refl _, by omega, run_halt 0 _ _ (step_BRK s hlt hz), ?_⟩
      show s.program_counter + 1 ≤ a + 2
      omega
    · have hlta : s.program_counter < a := by
        by_contra hc
        have hcases : s.program_counter = a ∨ s.program_counter = a + 1 := by omega
        rcases hcases with e | e
        · rw [e] at hz; exact hz h0
        · rw [e] at hz; exact hz h1
      obtain ⟨s1, hs⟩ := step_next_of_ne_zero s (by omega) hz
      obtain ⟨_, hlt1, hle1, hmem⟩ := step_next_inv s s1 hs
      obtain ⟨n, t, hn1, hn, hrun, ht⟩ :=
        ih s1 (by rw [hmem]; exact h0) (by rw [hmem]; exact h1) (by omega) (by omega)
      exact ⟨n + 1, t, by omega, by omega, by rw [run_next _ _ _ hs]; exact hrun, ht⟩

/-- An LDA whose opcode is in the last but one cell of the array reads its operand in
the last cell; the next fetch is outside the array. -/
theorem run_lda_then_fault (s : CPU) (k : Nat)
    (hpc : s.program_counter + 2 = MEMORY_SIZE)
    (hop : s.memory s.program_counter = 0xA9) : s.run (k + 1 + 1) = .fault := by
  rw [run_next (k + 1) _ _ (step_LDA s (by omega) hop)]
  refine run_fault k _ (step_fault _ ?_)
  show MEMORY_SIZE ≤ s.program_counter + 2
  omega

/-- A program of `n` unknown opcodes `0xEA` followed by the opcode `0xA9` in the last
but one cell of the array: the run skips the block, reads the operand in the last cell
and then fetches outside the array. -/
theorem exec_block_then_lda_at_end (mem0 : Nat → Nat) (p : List Nat) (n k : Nat)
    (hn : LOAD_BASE + n + 2 = MEMORY_SIZE) (hlen : p.length = n + 1)
    (hblock : ∀ i, i < n → p.getD i 0 = 0xEA) (hlast : p.getD n 0 = 0xA9) :
    loadAndRun (n + (k + 1 + 1)) mem0 p = .fault := by
  have hfit : LOAD_BASE + p.length ≤ MEMORY_SIZE := by omega
  rw [loadAndRun_eq _ _ _ hfit,
    run_unknown_block 0xEA (by decide) (by decide) (by decide) (by decide) n (k + 1 + 1)
      (loaded mem0 p) (show LOAD_BASE + n ≤ MEMORY_SIZE by omega)]
  · refine run_lda_then_fault _ k hn ?_
    show memcpy mem0 LOAD_BASE p (LOAD_BASE + n) = 0xA9
    rw [memcpy_inside _ _ _ _ (by omega), hlast]
  · intro i hi
    show (loaded mem0 p).memory (LOAD_BASE + i) = 0xEA
    rw [loaded_memory _ _ _ (by omega), hblock i hi]

/-- The program of `0x7FFD` unknown opcodes `0xEA` followed by the opcode `0xA9`:
`0x7FFE` bytes, the LDA opcode at `0xFFFD`.  The run skips to `0xFFFD`, reads the
operand at `0xFFFE` and then fetches at `0xFFFF`, outside the array. -/
theorem exec_lda_at_end (mem0 : Nat → Nat) (k : Nat) :
    loadAndRun (0x7FFF + k) mem0 (List.replicate 0x7FFD 0xEA ++ [0xA9]) = .fault := by
  have hk : 0x7FFF + k = 0x7FFD + (k + 1 + 1) := by omega
  rw [hk]
  apply exec_block_then_lda_at_end mem0 _ 0x7FFD k rfl
  · rw [List.length_append, List.length_replicate, List.length_singleton]
  · intro i hi
    rw [List.getD_eq_getElem?_getD,
      List.getElem?_append_left (by rw [List.length_replicate]; exact hi),
      List.getElem?_replicate_of_lt hi]
    rfl
  · rw [List.getD_eq_getElem?_getD,
      List.getElem?_append_right (Nat.le_of_eq (List.length_replicate _ _)),
      List.length_replicate]
    rfl

/-- C18, the general statement and the code at the failing input.  With `0x00` at two
consecutive addresses `a`, `a + 1` inside the array and `program_counter <= a`, `run`
returns within `a + 2 - program_counter` iterations with final
`program_counter <= a + 2`; hence, with memory zero-filled past the program, every
program of at most `0x7FFD` bytes returns.  A program of `0x8000 - 2 = 0x7FFE` bytes
need not: for `0x7FFD` bytes `0xEA` followed by `0xA9`, the LDA at `0xFFFD` takes its
operand at `0xFFFE` and the next fetch is at `0xFFFF`, which is not a cell of
`uint8_t memory[0xFFFF]`; `run` never returns inside defined behaviour. -/
theorem C18_halts_before_two_zero_bytes :
    (∀ (s : CPU) (a : Nat), s.program_counter ≤ a → a + 1 < MEMORY_SIZE →
      s.memory a = 0x00 → s.memory (a + 1) = 0x00 →
      ∃ n t, n ≤ a + 2 - s.program_counter ∧ (∀ k, s.run (n + k) = .halted t) ∧
        t.program_counter ≤ a + 2) ∧
    (∀ (mem0 : Nat → Nat) (p : List Nat), p.length ≤ 0x7FFD →
      (∀ a, LOAD_BASE + p.length ≤ a → a < MEMORY_SIZE → mem0 a = 0x00) →
      ∃ n t, n ≤ p.length + 2 ∧ ∀ k, loadAndRun (n + k) mem0 p = .halted t) ∧
    ((List.replicate 0x7FFD 0xEA ++ [0xA9]).length = 0x8000 - 2 ∧
      (∀ k, loadAndRun (0x7FFF + k) (fun _ => 0) (List.replicate 0x7FFD 0xEA ++ [0xA9])
        = .fault) ∧
      ∀ (n : Nat) (t : CPU),
        loadAndRun n (fun _ => 0) (List.replicate 0x7FFD 0xEA ++ [0xA9]) ≠ .halted t) := by
  have gen : ∀ (s : CPU) (a : Nat), s.program_counter ≤ a → a + 1 < MEMORY_SIZE →
      s.memory a = 0x00 → s.memory (a + 1) = 0x00 →
      ∃ n t, n ≤ a + 2 - s.program_counter ∧ (∀ k, s.run (n + k) = .halted t) ∧
        t.program_counter ≤ a + 2 := by
    intro s a hpc hin h0 h1
    obtain ⟨n, t, _, hn, hrun, ht⟩ :=
      run_halts_before a hin (a + 2 - s.program_counter) s h0 h1 (by omega) (Nat.le_refl _)
    exact ⟨n, t, hn, fun k => run_halted_add n k s t hrun, ht⟩
  refine ⟨gen, ?_, ?_, fun k => exec_lda_at_end _ k, ?_⟩
  · intro mem0 p hp hzero
    have hfit : LOAD_BASE + p.length ≤ MEMORY_SIZE := by
      unfold LOAD_BASE MEMORY_SIZE; omega
    have hin : LOAD_BASE + p.length + 1 < MEMORY_SIZE := by
      unfold LOAD_BASE MEMORY_SIZE; omega
    have h0 : (loaded mem0 p).memory (LOAD_BASE + p.length) = 0x00 := by
      show memcpy mem0 LOAD_BASE p (LOAD_BASE + p.length) = 0x00
      rw [memcpy_outside _ _ _ _ (Or.inr (Nat.le_refl _))]
      exact hzero _ (Nat.le_refl _) (by omega)
    have h1 : (loaded mem0 p).memory (LOAD_BASE + p.length + 1) = 0x00 := by
      show memcpy mem0 LOAD_BASE p (LOAD_BASE + p.length + 1) = 0x00
      rw [memcpy_outside _ _ _ _ (Or.inr (Nat.le_succ _))]
      exact hzero _ (Nat.le_succ _) hin
    obtain ⟨n, t, hn, hrun, _⟩ :=
      gen (loaded mem0 p) (LOAD_BASE + p.length)
        (show LOAD_BASE ≤ LOAD_BASE + p.length from Nat.le_add_right _ _) hin h0 h1
    have hn1 : n ≤ p.length + 2 := by
      have e : (loaded mem0 p).program_counter = LOAD_BASE := rfl
      rw [e] at hn
      omega
    refine ⟨n, t, hn1, fun k => ?_⟩
    rw [loadAndRun_eq _ _ _ hfit]
    exact hrun k
  · rw [List.length_append, List.length_replicate, List.length_singleton]
  · intro n t h
    have hfit : LOAD_BASE + (List.replicate 0x7FFD 0xEA ++ [0xA9]).length ≤ MEMORY_SIZE := by
      rw [List.length_append, List.length_replicate, List.length_singleton]
      decide
    have e1 := exec_lda_at_end (fun _ => 0) n
    rw [loadAndRun_eq _ _ _ hfit] at h e1
    have e2 := run_halted_add n 0x7FFF _ t h
    rw [Nat.add_comm n 0x7FFF, e1] at e2
    cases e2

/-! ## The copy of `load`, store by store -/

theorem memcpy_nil (m : Nat → Nat) (d : Nat) : memcpy m d [] = m := by
  funext a
  have h : ¬ (d ≤ a ∧ a < d + ([] : List Nat).length) := by
    simp only [List.length_nil]; omega
  simp only [memcpy, if_neg h]

/-- Storing the first byte and copying the rest one cell further is the whole copy. -/
theorem memcpy_cons (m : Nat → Nat) (d b : Nat) (rest : List Nat) :
    memcpy (fun a => if a = d then b else m a) (d + 1) rest = memcpy m d (b :: rest) := by
  rw [← applyStores_memcpyStores, ← applyStores_memcpyStores]
  rfl

/-- The stores of a copy to `d ..`, performed in order: when the copy fits, all of them
are done and the content is `memcpy`; when it does not, the bytes that fit are stored
and the store at the first index past the array stops the copy. -/
theorem storeBytes_memcpyStores (src : List Nat) :
    ∀ (d : Nat) (s : CPU), d ≤ MEMORY_SIZE →
      (d + src.length ≤ MEMORY_SIZE →
        CPU.storeBytes (memcpyStores d src) s =
          .done { s with memory := memcpy s.memory d src }) ∧
      (MEMORY_SIZE < d + src.length →
        CPU.storeBytes (memcpyStores d src) s =
          .outOfBounds { s with memory := memcpy s.memory d (src.take (MEMORY_SIZE - d)) }
            MEMORY_SIZE) := by
  induction src with
  | nil =>
    intro d s hd
    constructor
    · intro _
      simp only [memcpyStores, CPU.storeBytes, memcpy_nil]
    · intro h
      simp only [List.length_nil] at h
      omega
  | cons b rest ih =>
    intro d s hd
    by_cases hlt : d < MEMORY_SIZE
    · have hw : s.memoryWrite d b =
          some { s with memory := fun a => if a = d then b else s.memory a } := by
        unfold CPU.memoryWrite
        rw [if_pos hlt]
      obtain ⟨ih1, ih2⟩ :=
        ih (d + 1) { s with memory := fun a => if a = d then b else s.memory a } (by omega)
      constructor
      · intro h
        simp only [List.length_cons] at h
        simp only [memcpyStores, CPU.storeBytes, hw]
        rw [ih1 (by omega)]
        simp only [memcpy_cons]
      · intro h
        simp only [List.length_cons] at h
        simp only [memcpyStores, CPU.storeBytes, hw]
        rw [ih2 (by omega)]
        have ht : (b :: rest).take (MEMORY_SIZE - d) = b :: rest.take (MEMORY_SIZE - (d + 1)) := by
          rw [List.take_cons (by omega)]
          rfl
        simp only [memcpy_cons, ht]
    · have hd1 : d = MEMORY_SIZE := by omega
      have hw : s.memoryWrite d b = none := by
        unfold CPU.memoryWrite
        rw [if_neg hlt]
      constructor
      · intro h
        simp only [List.length_cons] at h
        omega
      · intro _
        simp only [memcpyStores, CPU.storeBytes, hw]
        subst hd1
        simp only [Nat.sub_self, List.take_zero, memcpy_nil]

theorem loadSteps_fits (s : CPU) (p : List Nat) (h : LOAD_BASE + p.length ≤ MEMORY_SIZE) :
    s.loadSteps p = .done { s with memory := memcpy s.memory LOAD_BASE p,
                                   program_counter := LOAD_BASE } := by
  unfold CPU.loadSteps
  rw [(storeBytes_memcpyStores p LOAD_BASE s (by decide)).1 h]

theorem loadSteps_too_large (s : CPU) (p : List Nat) (h : MEMORY_SIZE < LOAD_BASE + p.length) :
    s.loadSteps p = .outOfBounds
      { s with memory := memcpy s.memory LOAD_BASE (p.take (MEMORY_SIZE - LOAD_BASE)) }
      MEMORY_SIZE := by
  unfold CPU.loadSteps
  rw [(storeBytes_memcpyStores p LOAD_BASE s (by decide)).2 h]

/-- The method `load` as embedded in `CPU.load` is `loadSteps` with the out-of-bounds
outcome read as no defined result. -/
theorem load_eq_loadSteps (s : CPU) (p : List Nat) :
    s.load p = match s.loadSteps p with
      | .done s1 => some s1
      | .outOfBounds _ _ => none := by
  by_cases h : LOAD_BASE + p.length ≤ MEMORY_SIZE
  · rw [loadSteps_fits s p h, load_eq_some s p h]
  · rw [loadSteps_too_large s p (by omega), load_eq_none s p (by omega)]

/-- While the bytes from the program counter up to `top` are nonzero, the loop is still
running after `n` iterations, for every `n` with `program_counter + 2 * n <= top`: each
iteration advances the program counter by 1 or 2. -/
theorem run_running_in_block (top : Nat) (htop : top ≤ MEMORY_SIZE) :
    ∀ (n : Nat) (s : CPU),
      (∀ a, s.program_counter ≤ a → a < top → s.memory a ≠ 0x00) →
      s.program_counter + 2 * n ≤ top →
      ∃ t, s.run n = .running t ∧ s.program_counter + n ≤ t.program_counter ∧
        t.program_counter ≤ s.program_counter + 2 * n := by
  intro n
  induction n with
  | zero =>
    intro s _ _
    exact ⟨s, rfl, Nat.le_refl _, Nat.le_refl _⟩
  | succ n ih =>
    intro s hnz hn
    obtain ⟨s1, hs⟩ := step_next_of_ne_zero s (by omega) (hnz _ (Nat.le_refl _) (by omega))
    obtain ⟨_, hlt1, hle1, hmem⟩ := step_next_inv s s1 hs
    obtain ⟨t, hrun, h1, h2⟩ := ih s1
      (fun a ha hat => by rw [hmem]; exact hnz a (by omega) hat) (by omega)
    exact ⟨t, by rw [run_next _ _ _ hs]; exact hrun, by omega, by omega⟩

/-- Program of two unknown opcodes `0xEA` over zeroed storage: the third fetch reads the
`0x00` that the storage held at `0x8002`. -/
theorem exec_two_unknown_then_zero :
    loadAndRun 3 (fun _ => 0) [0xEA, 0xEA] =
      .halted ⟨0, 0, 0, LOAD_BASE + 3, memcpy (fun _ => 0) LOAD_BASE [0xEA, 0xEA]⟩ := by
  have hlen : LOAD_BASE + [0xEA, 0xEA].length ≤ MEMORY_SIZE := fits_of_length_le _ (by simp)
  have hm : memcpy (fun _ => 0) LOAD_BASE [0xEA, 0xEA] (LOAD_BASE + (1 + 1)) = 0x00 := by
    rw [memcpy_outside _ _ _ (LOAD_BASE + (1 + 1))
      (Or.inr (show LOAD_BASE + [0xEA, 0xEA].length ≤ LOAD_BASE + (1 + 1) from Nat.le_refl _))]
  have e3 : CPU.step ⟨0, 0, 0, LOAD_BASE + (1 + 1), memcpy (fun _ => 0) LOAD_BASE [0xEA, 0xEA]⟩ =
      .halt ⟨0, 0, 0, LOAD_BASE + 3, memcpy (fun _ => 0) LOAD_BASE [0xEA, 0xEA]⟩ :=
    step_BRK _ (show LOAD_BASE + (1 + 1) < MEMORY_SIZE by decide) hm
  rw [loadAndRun_eq _ _ _ hlen, loaded_eq,
    run_next 2 _ _ (prog_step_unknown (fun _ => 0) _ hlen 0 0 0 0 0xEA (by simp) rfl
      (by decide) (by decide) (by decide) (by decide)),
    run_next 1 _ _ (prog_step_unknown (fun _ => 0) _ hlen 0 0 0 1 0xEA (by simp) rfl
      (by decide) (by decide) (by decide) (by decide)),
    run_halt 0 _ _ e3]

/-- C13 as amended.  For a program that contains no `0x00` byte (and that `load` can
copy inside the array), constructing a CPU, loading the program and calling `run` does
not return while executing the program: after `n` iterations, for every `n` with
`2 * n <= p.size()`, the loop is still running, with `program_counter` between
`0x8000 + n` and `0x8000 + 2 * n`; and whenever `run` does return, after more than
`p.size() / 2` iterations, the `0x00` it fetched is not a byte of the program: its
address `a` is outside `0x8000 .. 0x8000 + p.size() - 1`, in memory that `load` did not
write, and `program_counter == a + 1`. -/
theorem C13_no_return_inside_program (mem0 : Nat → Nat) (p : List Nat)
    (hfit : p.length ≤ 0x7FFF) (hnz : ∀ x, x ∈ p → x ≠ 0x00) :
    (∀ n : Nat, 2 * n ≤ p.length →
      ∃ t, loadAndRun n mem0 p = .running t ∧ 0x8000 + n ≤ t.program_counter ∧
        t.program_counter ≤ 0x8000 + 2 * n) ∧
    (∀ (n : Nat) (t : CPU), loadAndRun n mem0 p = .halted t →
      ∃ a, (loaded mem0 p).haltFetch n = some a ∧
        (a < 0x8000 ∨ 0x8000 + p.length ≤ a) ∧ mem0 a = 0x00 ∧
        t.program_counter = a + 1 ∧ p.length < 2 * n) := by
  have hlen : LOAD_BASE + p.length ≤ MEMORY_SIZE := fits_of_length_le p hfit
  have hprog : ∀ a, (loaded mem0 p).program_counter ≤ a → a < LOAD_BASE + p.length →
      (loaded mem0 p).memory a ≠ 0x00 := by
    intro a ha hat
    have ha1 : LOAD_BASE ≤ a := ha
    obtain ⟨k, rfl⟩ := Nat.exists_eq_add_of_le ha1
    have hk : k < p.length := by omega
    rw [loaded_memory _ _ _ hk, List.getD_eq_getElem _ _ hk]
    exact hnz _ (List.getElem_mem hk)
  have running : ∀ n : Nat, 2 * n ≤ p.length →
      ∃ t, loadAndRun n mem0 p = .running t ∧ 0x8000 + n ≤ t.program_counter ∧
        t.program_counter ≤ 0x8000 + 2 * n := by
    intro n hn
    obtain ⟨t, hrun, h1, h2⟩ := run_running_in_block (LOAD_BASE + p.length) hlen n
      (loaded mem0 p) hprog (show LOAD_BASE + 2 * n ≤ LOAD_BASE + p.length by omega)
    exact ⟨t, by rw [loadAndRun_eq _ _ _ hlen]; exact hrun, h1, h2⟩
  refine ⟨running, ?_⟩
  intro n t h
  have hn : p.length < 2 * n := by
    by_contra hc
    obtain ⟨t1, hr, _⟩ := running n (by omega)
    rw [hr] at h
    cases h
  rw [loadAndRun_eq _ _ _ hlen] at h
  obtain ⟨a, ha, hle, _, hm, hpc, _⟩ := run_halted_inv n _ t h
  have hbeyond : LOAD_BASE + p.length ≤ a := by
    by_contra hc
    exact hprog a hle (by omega) hm
  refine ⟨a, ha, Or.inr hbeyond, ?_, hpc, hn⟩
  have hm1 : memcpy mem0 LOAD_BASE p a = 0x00 := hm
  rwa [memcpy_outside _ _ _ _ (Or.inr hbeyond)] at hm1

theorem C13_no_return_inside_program_witness :
    ([0xEA, 0xEA].length ≤ 0x7FFF ∧ ∀ x, x ∈ [0xEA, 0xEA] → x ≠ 0x00) ∧
    (∃ t, loadAndRun 1 (fun _ => 0) [0xEA, 0xEA] = .running t ∧
      0x8000 + 1 ≤ t.program_counter ∧ t.program_counter ≤ 0x8000 + 2 * 1) ∧
    (∃ a, (loaded (fun _ => 0) [0xEA, 0xEA]).haltFetch 3 = some a ∧
      (a < 0x8000 ∨ 0x8000 + [0xEA, 0xEA].length ≤ a) ∧ (fun _ => 0) a = 0x00 ∧
      LOAD_BASE + 3 = a + 1 ∧ [0xEA, 0xEA].length < 2 * 3) :=
  ⟨⟨by decide, by decide⟩,
    (C13_no_return_inside_program (fun _ => 0) [0xEA, 0xEA] (by decide) (by decide)).1 1
      (by decide),
    (C13_no_return_inside_program (fun _ => 0) [0xEA, 0xEA] (by decide) (by decide)).2 3 _
      exec_two_unknown_then_zero⟩

end NES
